import Mathlib

/-!
# Sushi: a verification development of `src/main.c`

A shallow embedding of the shell's line tokenizer (`readline`), argument
splitter (`readargs`), pipeline executor (`runall`, `runcmd`), job table
(`jobadd`, `jobrm`, `jobupdate`) and main loop body, followed by theorems
about them.

Conventions of the embedding:

* a C `char` is a `Char`; a C string is a `List Char`; the byte `NUL` ends a
  C string wherever the source reads one through `strchr`, `strpbrk` or `glob`;
* the arrays `linebuf`, `line`, `argsbuf` and `args` are lists: their capacity
  (`LINE_SIZE`, `ARGS_SIZE`) is stated separately as a bound on lengths;
* the sentinel `NULL` that ends `argsbuf` and `args` is the end of the list;
* system calls are answered by an environment whose answers may depend on
  everything that happened before; every call leaves an `Event` in a trace.
-/

namespace Sushi

/-! ## Characters and tokens -/

/-- The byte that ends a C string. -/
def NUL : Char := Char.ofNat 0

/-- The single quote character. -/
def QUOTE : Char := Char.ofNat 39

/-- The backslash character. -/
def BACKSLASH : Char := Char.ofNat 92

/-- The newline character. -/
def NEWLINE : Char := Char.ofNat 10

/-- The byte stored by `linebuf[size++] = c` when `c` is `EOF` (-1). -/
def EOFCHAR : Char := Char.ofNat 255

/-- Capacity of `linebuf` and `line`. -/
def LINE_SIZE : Nat := 1024

/-- Capacity of `argsbuf` and `args`. -/
def ARGS_SIZE : Nat := LINE_SIZE / 2

/-- An entry of `argsbuf` or `args`: a pointer into `line` (a literal C string)
or one of the four addresses `STR_PIPE`, `STR_REDIN`, `STR_REDOUT`,
`STR_REDAPP` inside `dummy`. -/
inductive Token where
  | lit (text : List Char)
  | pipe
  | redin
  | redout
  | redapp
  deriving DecidableEq, Repr

namespace Token

/-- The test `s == STR_REDIN || s == STR_REDOUT || s == STR_REDAPP`. -/
def isRedir : Token → Bool
  | redin => true
  | redout => true
  | redapp => true
  | _ => false

/-- The test `s == STR_REDOUT || s == STR_REDAPP`. -/
def isRedirOut : Token → Bool
  | redout => true
  | redapp => true
  | _ => false

/-- The C string a token points to. A literal points to its text; an operator
points into `dummy`, a zero-initialised array that is never written, so it
reads as the empty string. -/
def text : Token → List Char
  | lit s => s
  | _ => []

/-- A token that is a literal. -/
def isLit : Token → Bool
  | lit _ => true
  | _ => false

end Token

/-! ## First pass of `readline`: reading characters into `linebuf` -/

/-- The test `strchr(";&\n", c)`. `strchr` also finds the terminating NUL of
its first argument, so the test holds for `c = NUL` as well. -/
def isTerminator (c : Char) : Bool :=
  c == ';' || c == '&' || c == NEWLINE || c == NUL

/-- The state after the first `while` loop of `readline`: the bytes stored in
`linebuf[0..size)`, the last value of `c` (`none` is `EOF`) and the unread
input. -/
structure Raw where
  linebuf : List Char
  c : Option Char
  rest : List Char
  deriving DecidableEq, Repr

/-- The first `while` loop of `readline` (lines 99-112). The input is the
stream `getchar` reads from; its end is `EOF`. -/
def readRaw : Bool → List Char → List Char → Raw
  | _, [], buf => ⟨buf, none, []⟩
  | quote, c :: rest, buf =>
    if quote || !isTerminator c then
      if c = BACKSLASH then
        match rest with
        | [] => ⟨buf ++ [QUOTE, EOFCHAR, QUOTE], none, []⟩
        | d :: rest' => readRaw quote rest' (buf ++ [QUOTE, d, QUOTE])
      else
        readRaw (if c = QUOTE then !quote else quote) rest (buf ++ [c])
    else
      ⟨buf, some c, rest⟩

/-! ## Second pass of `readline`: cutting `linebuf` into tokens -/

/-- Membership in the set `">|< "` given to `strpbrk`. -/
def isDelim (c : Char) : Bool :=
  c == '>' || c == '|' || c == '<' || c == ' '

/-- The call `strpbrk(bufp, ">|< ")` on the bytes from `bufp` on: the offset of
the first delimiter found before a NUL, `none` for a `NULL` result. -/
def strpbrk : List Char → Option Nat
  | [] => none
  | c :: cs =>
    if c = NUL then none
    else if isDelim c then some 0
    else (strpbrk cs).map (· + 1)

/-- The distance `stop - bufp` after lines 127-129: a `NULL` result of
`strpbrk` is replaced by `linebuf + size`. -/
def stopOffset (rest : List Char) : Nat :=
  (strpbrk rest).getD rest.length

/-- The test `strchr("\\~?*[]{}", c)`, true for NUL as well. -/
def isGlobMeta (c : Char) : Bool :=
  c == BACKSLASH || c == '~' || c == '?' || c == '*' || c == '[' || c == ']'
    || c == Char.ofNat 123 || c == Char.ofNat 125 || c == NUL

/-- The `for` loop of lines 132-145, which copies one token into `line`.
Arguments: `quote`, the distance `stop - bufp` (0 once `bufp` is at or past
`stop`), the bytes of `linebuf` from `bufp` up to `linebuf + size`, and the
bytes written to `line` so far. The result is the bytes written and the
rest of `linebuf`; it is `none` when the loop is still running at
`linebuf + size`, where it goes on into memory this line did not write. -/
def copyTok : Bool → Nat → List Char → List Char → Option (List Char × List Char)
  | quote, k, [], acc => if quote || decide (0 < k) then none else some (acc, [])
  | quote, k, c :: rest, acc =>
    if quote || decide (0 < k) then
      if c = QUOTE then
        if quote then copyTok false (stopOffset (c :: rest) - 1) rest acc
        else copyTok true (k - 1) rest acc
      else if quote && isGlobMeta c then copyTok quote (k - 1) rest (acc ++ [BACKSLASH, c])
      else copyTok quote (k - 1) rest (acc ++ [c])
    else some (acc, c :: rest)

/-- The C string that starts at the head of the given bytes. -/
def cstr (l : List Char) : List Char :=
  l.takeWhile (· != NUL)

/-- The copy loop of lines 156-159 on a C string: a backslash is skipped and
the byte after it is copied; a backslash at the very end is dropped. -/
def unescape : List Char → List Char
  | [] => []
  | c :: rest =>
    if c = BACKSLASH then
      match rest with
      | [] => []
      | d :: rest' => d :: unescape rest'
    else c :: unescape rest

/-- The libc function `glob` with the flags of line 150, as seen by its caller:
`none` for a non-zero return, otherwise the vector `gl_pathv`. -/
abbrev Glob := List Char → Option (List (List Char))

/-- A matcher that finds no path: with `GLOB_NOCHECK` it reports its pattern. -/
def globNoMatch : Glob := fun pattern => some [pattern]

/-- The expansion step of lines 146-162 for the bytes just written to `line`:
the pattern is the C string at the start of the token; every reported path
is copied back through `unescape` and becomes one token. -/
def expand (glob : Glob) (written : List Char) : List Token :=
  match glob (cstr written) with
  | none => []
  | some paths => paths.map fun p => Token.lit (unescape (cstr p))

/-- The second `while` loop of `readline` (lines 126-182) on the bytes of
`linebuf` from `bufp` on. Each round consumes at least one byte, so the
length of `linebuf` is enough fuel; `none` is a run past `linebuf + size`
(or exhausted fuel). The byte `*(bufp + 1)` of line 172 is the next byte of
`linebuf`, or the NUL stored at `linebuf[size]`. -/
def tokLoop (glob : Glob) : Nat → List Char → Option (List Token)
  | _, [] => some []
  | 0, _ :: _ => none
  | fuel + 1, c :: rest =>
    if stopOffset (c :: rest) ≠ 0 then
      match copyTok false (stopOffset (c :: rest)) (c :: rest) [] with
      | none => none
      | some (written, rest') => (tokLoop glob fuel rest').map (expand glob written ++ ·)
    else if c = '|' then (tokLoop glob fuel rest).map (Token.pipe :: ·)
    else if c = '<' then (tokLoop glob fuel rest).map (Token.redin :: ·)
    else if c = '>' then
      if rest.headD NUL = '>' then (tokLoop glob fuel rest.tail).map (Token.redapp :: ·)
      else (tokLoop glob fuel rest).map (Token.redout :: ·)
    else tokLoop glob fuel rest

/-- What `readline` leaves behind when it returns 0. -/
structure Line where
  argsbuf : List Token
  resume : Bool
  background : Bool
  rest : List Char
  deriving DecidableEq, Repr

/-- The outcome of `readline`: return value -1, return value 0, or a second
pass that leaves the bytes written for this line. -/
inductive ReadResult where
  | eof
  | ok (line : Line)
  | overrun
  deriving DecidableEq, Repr

/-- The tokens stored in `argsbuf`, when `readline` returned 0. -/
def ReadResult.tokens : ReadResult → Option (List Token)
  | .ok l => some l.argsbuf
  | _ => none

/-- The function `readline` (lines 90-186), without its terminal output. -/
def readline (glob : Glob) (input : List Char) : ReadResult :=
  let r := readRaw false input []
  let resume := r.c != some NEWLINE
  let background := r.c == some '&'
  if r.linebuf.length = 0 ∧ r.c = none then .eof
  else
    match tokLoop glob r.linebuf.length r.linebuf with
    | none => .overrun
    | some toks => .ok ⟨toks, resume, background, r.rest⟩

/-! ## The environment and the trace of calls -/

/-- A record of the job list (`struct job` without its link). -/
structure Job where
  pid : Int
  done : Bool
  deriving DecidableEq, Repr

/-- One call made by the shell process, with its arguments and its answer, in
the order of execution. The three `call...` events mark the entry of a function. -/
inductive Event where
  | openFile (path : List Char) (flags : Nat) (fd : Int)
  | close (fd : Int)
  | syntaxError (tok : List Char)
  | errfile (path : List Char)
  | pipe (ret rd wr : Int)
  | vfork (argv : List Token) (fdin fdout : Int) (pid : Int)
  | waitpid (pid : Int)
  | started (pid : Int)
  | completed (pid : Int)
  | eh
  | chdir (path : List Char) (ret : Int)
  | perror
  | helpBanner
  | exitMsg
  | callBuiltin (name : List Char)
  | callRunall
  | callJobupdate
  deriving DecidableEq, Repr

/-- The operating system as the shell sees it. Every answer may depend on the
calls made so far. `pipe` answers with its return value, which the source
does not look at, and the two values found in `tmpfd` after the call. `vfork`
answers with the value returned in the shell process. Both environment
variables are taken to be set. -/
structure Env where
  openFile : List Event → List Char → Nat → Int
  pipe : List Event → Int × Int × Int
  vfork : List Event → Int
  chdir : List Event → List Char → Int
  isexec : List Event → List Char → Bool
  path : List Char
  home : List Char

/-- The flag `O_RDONLY` of `fcntl.h` (Linux value). -/
def O_RDONLY : Nat := 0

/-- The flag `O_WRONLY` of `fcntl.h` (Linux value). -/
def O_WRONLY : Nat := 1

/-- The flag `O_CREAT` of `fcntl.h` (Linux value). -/
def O_CREAT : Nat := 64

/-- The flag `O_TRUNC` of `fcntl.h` (Linux value). -/
def O_TRUNC : Nat := 512

/-- The flag `O_APPEND` of `fcntl.h` (Linux value). -/
def O_APPEND : Nat := 1024

/-! ## `readargs` -/

/-- The statement `if (fd > 0) close(fd);`. -/
def closeIfPos (fd : Int) (ev : List Event) : List Event :=
  if 0 < fd then ev ++ [Event.close fd] else ev

/-- The value of `flags` at line 216. -/
def outFlags (s : Token) : Nat :=
  if s = Token.redapp then (O_CREAT ||| O_WRONLY ||| O_TRUNC) ^^^ (O_TRUNC ||| O_APPEND)
  else O_CREAT ||| O_WRONLY ||| O_TRUNC

/-- The globals after `readargs` returns, its return value and the calls it made. -/
structure ArgsResult where
  ret : Int
  rdin : Int
  rdout : Int
  args : List Token
  events : List Event
  deriving DecidableEq, Repr

/-- The `for` loop of `readargs` and the code after it (lines 195-250), on the
entries of `argsbuf` from index `i` on. `args` holds `args[0..j)`, `ev` the
calls made so far by this `readargs`, `hist` the calls made before it. -/
def readargsLoop (env : Env) (hist : List Event) :
    List Token → Int → Int → List Token → List Event → ArgsResult
  | [], rdin, rdout, args, ev =>
    let rdin1 := if rdin < 0 then 0 else rdin
    let rdout1 := if rdout < 0 then 1 else rdout
    if args.getLast? = some Token.pipe then
      ⟨-1, rdin1, rdout1, args, ev ++ [Event.syntaxError "|".toList]⟩
    else
      ⟨if args.length ≠ 0 then 0 else -1, rdin1, rdout1, args, ev⟩
  | s :: rest, rdin, rdout, args, ev =>
    if s.isRedir then
      match rest with
      | [] =>
        ⟨-1, rdin, rdout, args,
          closeIfPos rdout (closeIfPos rdin ev) ++ [Event.syntaxError "newline".toList]⟩
      | f :: rest' =>
        if s.isRedirOut then
          let ev1 := closeIfPos rdout ev
          let fd := env.openFile (hist ++ ev1) f.text (outFlags s)
          let ev2 := ev1 ++ [Event.openFile f.text (outFlags s) fd]
          if fd < 0 then
            ⟨-1, rdin, fd, args, closeIfPos rdin ev2 ++ [Event.errfile f.text]⟩
          else readargsLoop env hist rest' rdin fd args ev2
        else
          let ev1 := closeIfPos rdin ev
          let fd := env.openFile (hist ++ ev1) f.text O_RDONLY
          let ev2 := ev1 ++ [Event.openFile f.text O_RDONLY fd]
          if fd < 0 then
            ⟨-1, fd, rdout, args, closeIfPos rdout ev2 ++ [Event.errfile f.text]⟩
          else readargsLoop env hist rest' fd rdout args ev2
    else readargsLoop env hist rest rdin rdout (args ++ [s]) ev

/-- The function `readargs` (lines 188-251) on the tokens of `argsbuf`. -/
def readargs (env : Env) (hist : List Event) (argsbuf : List Token) : ArgsResult :=
  readargsLoop env hist argsbuf (-1) (-1) [] []

/-- The effect of one call on the list of open descriptors: a successful
`open` adds its result, a successful `pipe` adds both ends, `close` removes one
occurrence of its argument. -/
def fdStep (fds : List Int) : Event → List Int
  | Event.openFile _ _ fd => if 0 ≤ fd then fd :: fds else fds
  | Event.pipe ret rd wr => if ret = 0 then wr :: rd :: fds else fds
  | Event.close fd => fds.erase fd
  | _ => fds

/-- The descriptors a trace leaves open in the shell process. -/
def openFds (ev : List Event) : List Int :=
  ev.foldl fdStep []

/-! ## `runall` and `runcmd` -/

/-- The job list, head first. -/
abbrev Jobs := List Job

/-- The function `jobadd` (lines 421-431). -/
def jobadd (pid : Int) (jobs : Jobs) : List Event × Jobs :=
  ([Event.started pid], ⟨pid, false⟩ :: jobs)

/-- The function `jobrm` (lines 433-441): the first record with this pid is
marked done. -/
def jobrm (pid : Int) : Jobs → Jobs
  | [] => []
  | j :: rest => if j.pid ≠ pid then j :: jobrm pid rest else { j with done := true } :: rest

/-- What the child does between `vfork` and `execvp` (lines 295-307). -/
inductive ChildStep where
  | dup2 (fd target : Int)
  | close (fd : Int)
  | execvp (file : List Char) (argv : List Token)
  deriving DecidableEq, Repr

/-- The branch `pid == 0` of `runcmd`, run by the child. -/
def childSide (argv : List Token) (fdin fdout : Int) : List ChildStep :=
  (if fdin ≠ 0 then [ChildStep.dup2 fdin 0, ChildStep.close fdin] else [])
    ++ (if fdout ≠ 1 then [ChildStep.dup2 fdout 1, ChildStep.close fdout] else [])
    ++ [ChildStep.execvp (argv.headD (Token.lit [])).text argv]

/-- The function `runcmd` (lines 289-314) in the shell process: `argv` is
`args + offset` up to the `NULL` written at line 275. The result is the calls
made and the job list. -/
def runcmd (env : Env) (hist : List Event) (argv : List Token) (fdin fdout : Int)
    (background : Bool) (jobs : Jobs) : List Event × Jobs :=
  let pid := env.vfork hist
  if 0 < pid then
    if background then
      ([Event.vfork argv fdin fdout pid] ++ (jobadd pid jobs).1, (jobadd pid jobs).2)
    else ([Event.vfork argv fdin fdout pid, Event.waitpid pid], jobs)
  else ([Event.vfork argv fdin fdout pid], jobs)

/-- The state `runall` leaves behind and the calls it made. -/
structure RunResult where
  events : List Event
  jobs : Jobs
  background : Bool
  deriving DecidableEq, Repr

/-- The variables of the `for` loop of `runall`: `fd[0]`, the globals
`background` and `jobs`, and the calls made so far by this `runall`. -/
structure LoopState where
  fd0 : Int
  background : Bool
  jobs : Jobs
  events : List Event
  deriving DecidableEq, Repr

/-- One round of the `for` loop of `runall` (lines 265-283) for the stage
`args[i..j)`; `last` is `args[j] == NULL`, `fd1` is `fd[1]`, `bg` the saved
value of `background`. A pipe is created in every round; in the last round
`tmpfd[1]` is overwritten with `fd[1]`. -/
def runStage (env : Env) (hist : List Event) (bg : Bool) (fd1 : Int)
    (stage : List Token) (last : Bool) (st : LoopState) : LoopState :=
  let p := env.pipe (hist ++ st.events)
  let ev1 := st.events ++ [Event.pipe p.1 p.2.1 p.2.2]
  let background1 := if last && bg then true else st.background
  let out := if last then fd1 else p.2.2
  let r := runcmd env (hist ++ ev1) stage st.fd0 out background1 st.jobs
  let ev2 := ev1 ++ r.1
  let ev3 := if st.fd0 ≠ 0 then ev2 ++ [Event.close st.fd0] else ev2
  let ev4 := if out ≠ 1 then ev3 ++ [Event.close out] else ev3
  ⟨p.2.1, background1, r.2, ev4⟩

/-- The `for` loop of `runall` (lines 261-286) on the entries of `args` from
index `i` on. The inner loop of line 262 starts at `i + 1`, so the stage is
`args[i]` followed by the entries up to the next Pipe marker or the end; the
next round starts after that Pipe marker. Each round consumes at least one
entry, so the length of `args` is enough fuel; `none` is exhausted fuel. -/
def runallLoop (env : Env) (hist : List Event) (bg : Bool) (fd1 : Int) :
    Nat → List Token → LoopState → Option RunResult
  | _, [], st => some ⟨st.events, st.jobs, st.background⟩
  | 0, _ :: _, _ => none
  | fuel + 1, a :: rest, st =>
    runallLoop env hist bg fd1 fuel ((rest.dropWhile (· ≠ Token.pipe)).drop 1)
      (runStage env hist bg fd1 (a :: rest.takeWhile (· ≠ Token.pipe))
        (rest.dropWhile (· ≠ Token.pipe)).isEmpty st)

/-- The function `runall` (lines 253-287) for the globals `args`, `rdin`,
`rdout`, `background` and `jobs`. -/
def runall (env : Env) (hist : List Event) (args : List Token) (rdin rdout : Int)
    (background : Bool) (jobs : Jobs) : Option RunResult :=
  runallLoop env hist background rdout args.length args ⟨rdin, false, jobs, []⟩

/-! ## The job list and the body of the main loop -/

/-- The function `jobupdate` (lines 443-462): `kept` are the records before
`cur` that stay in the list. A done record is unlinked (from `jobs` when it
is the head, from `prev` otherwise) and reported. -/
def jobupdateLoop : Jobs → Jobs → List Event → Jobs × List Event
  | kept, [], ev => (kept, ev)
  | kept, cur :: next, ev =>
    if cur.done then jobupdateLoop kept next (ev ++ [Event.completed cur.pid])
    else jobupdateLoop (kept ++ [cur]) next ev

/-- The function `jobupdate` on the job list. -/
def jobupdate (jobs : Jobs) : Jobs × List Event :=
  jobupdateLoop [] jobs []

/-- The table `builtins`. -/
inductive Builtin where
  | cd
  | help
  | exit
  deriving DecidableEq, Repr

/-- The function `getbuiltin` (lines 360-367). -/
def getbuiltin (name : List Char) : Option Builtin :=
  if name = "cd".toList then some Builtin.cd
  else if name = "help".toList then some Builtin.help
  else if name = "exit".toList then some Builtin.exit
  else none

/-- The pieces `strtok(path, ":")` yields: the non-empty fields. -/
def strtokColon (path : List Char) : List (List Char) :=
  (path.splitOn ':').filter (· ≠ [])

/-- The function `iscmd` (lines 334-349), with `isexec` answered by the
environment. -/
def iscmd (env : Env) (hist : List Event) (name : List Char) : Bool :=
  if '/' ∈ name then env.isexec hist name
  else (strtokColon env.path).any fun dir => env.isexec hist (dir ++ '/' :: name)

/-- The outcome of one round of the main loop. -/
structure StepResult where
  events : List Event
  jobs : Jobs
  background : Bool
  exited : Bool
  deriving DecidableEq, Repr

/-- The builtin functions `changedir`, `help` and `myexit` (lines 369-390). The
result is the calls made and whether the process has exited. -/
def runBuiltin (env : Env) (hist : List Event) (args : List Token) :
    Builtin → List Event × Bool
  | Builtin.cd =>
    let path := match args with
      | _ :: t :: _ => t.text
      | _ => env.home
    let ret := env.chdir hist path
    (if ret < 0 then [Event.chdir path ret, Event.perror] else [Event.chdir path ret], false)
  | Builtin.help => ([Event.helpBanner], false)
  | Builtin.exit => ([Event.exitMsg], true)

/-- The body of the `while` loop of `main` (lines 73-86), entered after
`readline` returned 0 with the given `argsbuf` and `background`. -/
def mainBody (env : Env) (hist : List Event) (argsbuf : List Token) (background : Bool)
    (jobs : Jobs) : Option StepResult :=
  let ra := readargs env hist argsbuf
  if ra.ret < 0 then some ⟨ra.events, jobs, background, false⟩
  else
    let name := (ra.args.headD (Token.lit [])).text
    let after : Option StepResult :=
      match getbuiltin name with
      | some b =>
        let r := runBuiltin env (hist ++ ra.events ++ [Event.callBuiltin name]) ra.args b
        some ⟨ra.events ++ [Event.callBuiltin name] ++ r.1, jobs, background, r.2⟩
      | none =>
        if iscmd env (hist ++ ra.events) name then
          (runall env (hist ++ ra.events ++ [Event.callRunall]) ra.args ra.rdin ra.rdout
            background jobs).map fun r =>
              ⟨ra.events ++ [Event.callRunall] ++ r.events, r.jobs, r.background, false⟩
        else some ⟨ra.events ++ [Event.eh], jobs, background, false⟩
    after.map fun s =>
      if s.exited then s
      else ⟨s.events ++ [Event.callJobupdate] ++ (jobupdate s.jobs).2, (jobupdate s.jobs).1,
        s.background, false⟩

/-- One round of the main loop: `readline`, then the body. `none` stands for a
`readline` that left its line or for exhausted fuel; a result with no events
and `exited` set stands for the end of input. -/
def mainStep (glob : Glob) (env : Env) (hist : List Event) (input : List Char)
    (jobs : Jobs) (background : Bool) : Option (StepResult × List Char) :=
  match readline glob input with
  | .overrun => none
  | .eof => some (⟨[], jobs, background, true⟩, [])
  | .ok l => (mainBody env hist l.argsbuf l.background jobs).map fun s => (s, l.rest)

/-! ## Reference definitions used in the statements -/

/-- The bytes the copy loop writes for quoted text: every byte for which
`isGlobMeta` holds gets a backslash in front. -/
def escape : List Char → List Char
  | [] => []
  | c :: rest => if isGlobMeta c then BACKSLASH :: c :: escape rest else c :: escape rest

/-- An ordinary character: no quote, no backslash or other glob metacharacter,
no line terminator, and none of the delimiters `>`, `|`, `<`, space. -/
def isOrdinary (c : Char) : Bool :=
  !(c == QUOTE) && !isGlobMeta c && !isTerminator c && !isDelim c

/-- The literal token a finished run of ordinary characters gives (none for an
empty run). -/
def flush (cur : List Char) : List Token :=
  if cur = [] then [] else [Token.lit cur]

/-- Reference lexing, read left to right with the run of ordinary characters
collected so far: `|` is a Pipe marker, `<` a RedirectIn marker, `>>` one
RedirectAppend marker, a `>` not followed by `>` a RedirectOut marker, a space
gives no token, and every other character extends the current run. -/
def refLexFrom : List Char → List Char → List Token
  | cur, [] => flush cur
  | cur, c :: rest =>
    if c = '|' then flush cur ++ Token.pipe :: refLexFrom [] rest
    else if c = '<' then flush cur ++ Token.redin :: refLexFrom [] rest
    else if c = '>' then
      match rest with
      | [] => flush cur ++ [Token.redout]
      | d :: rest' =>
        if d = '>' then flush cur ++ Token.redapp :: refLexFrom [] rest'
        else flush cur ++ Token.redout :: refLexFrom [] (d :: rest')
    else if c = ' ' then flush cur ++ refLexFrom [] rest
    else refLexFrom (cur ++ [c]) rest

/-- Reference lexing of a line. -/
def refLex (l : List Char) : List Token :=
  refLexFrom [] l

/-- The clean argument vector in the words of the specification: every
redirection operator and the token right after it are removed, every other
token is kept, in order. -/
def cleanArgs : List Token → List Token
  | [] => []
  | s :: rest =>
    if s.isRedir then
      match rest with
      | [] => []
      | _ :: rest' => cleanArgs rest'
    else s :: cleanArgs rest

/-- Every redirection operator of the sequence is followed by a literal (its
file name). -/
def redirsOk : List Token → Bool
  | [] => true
  | s :: rest =>
    if s.isRedir then
      match rest with
      | [] => false
      | f :: rest' => f.isLit && redirsOk rest'
    else redirsOk rest

/-- The redirections of a token sequence, in order: the path and the flags the
file is to be opened with. -/
def redirections : List Token → List (List Char × Nat)
  | [] => []
  | s :: rest =>
    if s.isRedir then
      match rest with
      | [] => []
      | f :: rest' =>
        (f.text, if s.isRedirOut then outFlags s else O_RDONLY) :: redirections rest'
    else redirections rest

/-- The path and flags of an `open` call. -/
def Event.openArgs : Event → Option (List Char × Nat)
  | Event.openFile path flags _ => some (path, flags)
  | _ => none

/-- The `open` calls of a trace, in order. -/
def opens (ev : List Event) : List (List Char × Nat) :=
  ev.filterMap Event.openArgs

/-- The path of an `open` call that failed. -/
def Event.failedPath : Event → Option (List Char)
  | Event.openFile path _ fd => if fd < 0 then some path else none
  | _ => none

/-- The paths of the failed `open` calls of a trace, in order. -/
def failedOpens (ev : List Event) : List (List Char) :=
  ev.filterMap Event.failedPath

/-- A message to the user: `syntax` or `errfile`. -/
def Event.isReport : Event → Bool
  | Event.syntaxError _ => true
  | Event.errfile _ => true
  | _ => false

/-- The messages `syntax` and `errfile` printed in a trace, in order. -/
def reports (ev : List Event) : List Event :=
  ev.filter Event.isReport

/-- The result of the latest `open` of one direction (`true`: for writing,
`false`: with `O_RDONLY`), given the latest one before this call. -/
def lastOpenStep (out : Bool) (acc : Option Int) : Event → Option Int
  | Event.openFile _ flags fd => if decide (flags ≠ O_RDONLY) = out then some fd else acc
  | _ => acc

/-- The result of the last `open` of one direction in a trace. -/
def lastOpen (out : Bool) (ev : List Event) : Option Int :=
  ev.foldl (lastOpenStep out) none

/-- The descriptor that `if (fd > 0) close(fd);` closes, as a list. -/
def posList (fd : Int) : List Int :=
  if 0 < fd then [fd] else []

/-! ## Sample environments and inputs -/

/-- An environment in which every call succeeds: `open` answers with a fresh
positive descriptor, `pipe` with two fresh descriptors, `vfork` with a fresh
pid; every name is an executable. -/
def envOk : Env where
  openFile := fun h _ _ => 3 + h.length
  pipe := fun h => (0, 3 + h.length, 4 + h.length)
  vfork := fun h => 100 + h.length
  chdir := fun _ _ => 0
  isexec := fun _ _ => true
  path := "/bin".toList
  home := "/root".toList

/-- An environment in which `open` fails for the path `no` and succeeds with a
fresh positive descriptor for every other path. -/
def envNoFile : Env where
  openFile := fun h p _ => if p = "no".toList then -1 else 3 + h.length
  pipe := fun h => (0, 3 + h.length, 4 + h.length)
  vfork := fun h => 100 + h.length
  chdir := fun _ _ => 0
  isexec := fun _ _ => true
  path := "/bin".toList
  home := "/root".toList

/-- The tokens of `sort < in | uniq > tmp >> out`. -/
def sampleTokens : List Token :=
  [Token.lit "sort".toList, Token.redin, Token.lit "in".toList, Token.pipe,
    Token.lit "uniq".toList, Token.redout, Token.lit "tmp".toList, Token.redapp,
    Token.lit "out".toList]

/-- A call that starts a command: `vfork`, or the entry of a builtin or of
`runall`. -/
def Event.isLaunch : Event → Bool
  | Event.vfork _ _ _ _ => true
  | Event.callBuiltin _ => true
  | Event.callRunall => true
  | _ => false

/-- The loop invariant of `readargs` on its descriptors: `rdin` and `rdout` are
the results of the last `open` of their direction (-1 when there is none),
these results are positive, and they are exactly the descriptors left open. -/
def Tracked (rdin rdout : Int) (ev : List Event) : Prop :=
  rdin = (lastOpen false ev).getD (-1) ∧
  rdout = (lastOpen true ev).getD (-1) ∧
  (∀ b x, lastOpen b ev = some x → 0 < x) ∧
  (openFds ev).Perm ((lastOpen false ev).toList ++ (lastOpen true ev).toList)

/-- A `vfork` call of a trace: the argument vector, the input descriptor and
the output descriptor handed to `runcmd`. -/
def Event.forkArgs : Event → Option (List Token × Int × Int)
  | Event.vfork argv fdin fdout _ => some (argv, fdin, fdout)
  | _ => none

/-- The `runcmd` calls of a trace, in order. -/
def forks (ev : List Event) : List (List Token × Int × Int) :=
  ev.filterMap Event.forkArgs

/-- The two ends a `pipe` call left in `tmpfd`: read end, write end. -/
def Event.pipeEnds : Event → Option (Int × Int)
  | Event.pipe _ rd wr => some (rd, wr)
  | _ => none

/-- The `pipe` calls of a trace, in order. -/
def pipes (ev : List Event) : List (Int × Int) :=
  ev.filterMap Event.pipeEnds

/-- The argument vector made of the given stages with one Pipe marker between
neighbours. -/
def joinStages : List (List Token) → List Token
  | [] => []
  | s :: rest =>
    match rest with
    | [] => s
    | _ :: _ => s ++ Token.pipe :: joinStages rest

/-! ## Further reference definitions -/

/-- What a call does to a child process, without the arguments of the call:
it is spawned, waited for with a blocking `waitpid`, or registered as a job. -/
inductive ProcStep where
  | spawn (pid : Int)
  | wait (pid : Int)
  | register (pid : Int)
  deriving DecidableEq, Repr

/-- The step a call stands for, if any. -/
def Event.procStep : Event → Option ProcStep
  | Event.vfork _ _ _ pid => some (ProcStep.spawn pid)
  | Event.waitpid pid => some (ProcStep.wait pid)
  | Event.started pid => some (ProcStep.register pid)
  | _ => none

/-- The spawns, blocking waits and job registrations of a trace, in order. -/
def steps (ev : List Event) : List ProcStep :=
  ev.filterMap Event.procStep

/-- The value `vfork` returned, for a `vfork` call. -/
def Event.forkPid : Event → Option Int
  | Event.vfork _ _ _ pid => some pid
  | _ => none

/-- The values returned by the `vfork` calls of a trace, in order. -/
def forkPids (ev : List Event) : List Int :=
  ev.filterMap Event.forkPid

/-- The line `a|a|...a|` with `k` commands and `k` Pipe characters. -/
def pipeLine : Nat → List Char
  | 0 => []
  | k + 1 => 'a' :: '|' :: pipeLine k

/-- The tokens of `a | | b`. -/
def doublePipeTokens : List Token :=
  [Token.lit ['a'], Token.pipe, Token.pipe, Token.lit ['b']]

/-- The tokens of `a > | b`. -/
def redirPipeTokens : List Token :=
  [Token.lit ['a'], Token.redout, Token.pipe, Token.lit ['b']]

/-- The steps of processes that are spawned and waited for one after the
other: each process is spawned, then waited for, before the next is spawned. -/
def waited : List Int → List ProcStep
  | [] => []
  | p :: ps => ProcStep.spawn p :: ProcStep.wait p :: waited ps

/-! ## The job list in memory -/

/-- A `struct job` object: the record and its `next` pointer (`none` is `NULL`). -/
structure JobNode where
  job : Job
  next : Option Nat
  deriving DecidableEq, Repr

/-- The allocated `struct job` objects, by address. -/
abbrev JobHeap := Nat → Option JobNode

/-- The call `free(cur)`. -/
def JobHeap.free (heap : JobHeap) (c : Nat) : JobHeap :=
  fun a => if a = c then none else heap a

/-- The assignment `prev->next = next` on the object at address `p`. -/
def JobHeap.setNext (heap : JobHeap) (p : Nat) (next : Option Nat) : JobHeap :=
  fun a => if a = p then (heap p).map (fun n => { n with next := next }) else heap a

/-- The `for` loop of `jobupdate` (lines 448-461) on the objects in memory, with
the global `jobs`, the notices printed so far and the pointers `prev` and
`cur`. `none` stands for an access to an object that is not allocated, or
for exhausted fuel; each round moves `cur` one object on. -/
def jobupdateMemLoop :
    Nat → JobHeap → Option Nat → List Event → Option Nat → Option Nat →
      Option (JobHeap × Option Nat × List Event)
  | _, heap, jobs, ev, _, none => some (heap, jobs, ev)
  | 0, _, _, _, _, some _ => none
  | fuel + 1, heap, jobs, ev, prev, some c =>
    match heap c with
    | none => none
    | some node =>
      if node.job.done then
        if some c = jobs then
          jobupdateMemLoop fuel (heap.free c) node.next
            (ev ++ [Event.completed node.job.pid]) prev node.next
        else
          match prev with
          | none => none
          | some p =>
            match heap p with
            | none => none
            | some _ =>
              jobupdateMemLoop fuel ((heap.setNext p node.next).free c) jobs
                (ev ++ [Event.completed node.job.pid]) prev node.next
      else jobupdateMemLoop fuel heap jobs ev (some c) node.next

/-- The function `jobupdate` (lines 443-462) on the objects in memory:
`prev = cur = jobs`, then the loop. The result is the memory, the global
`jobs` and the notices printed. -/
def jobupdateMem (fuel : Nat) (heap : JobHeap) (jobs : Option Nat) :
    Option (JobHeap × Option Nat × List Event) :=
  jobupdateMemLoop fuel heap jobs [] jobs jobs

/-- The objects reached from the pointer `head` by following `next` are the
given records at the given addresses, and the last `next` is `tail`. -/
def IsSeg (heap : JobHeap) : Option Nat → List (Nat × Job) → Option Nat → Prop
  | head, [], tail => head = tail
  | head, (a, j) :: rest, tail =>
    head = some a ∧ ∃ next, heap a = some ⟨j, next⟩ ∧ IsSeg heap next rest tail

/-- The job list that starts at `head` and ends with `NULL` holds the given
records at the given addresses. -/
def IsChain (heap : JobHeap) (head : Option Nat) (chain : List (Nat × Job)) : Prop :=
  IsSeg heap head chain none

/-- The completion notices for the done records of a list, in order. -/
def notices (chain : List (Nat × Job)) : List Event :=
  (chain.filter (fun n => n.2.done)).map (fun n => Event.completed n.2.pid)

/-- The records of a list whose completion flag is clear, in order. -/
def running (chain : List (Nat × Job)) : List (Nat × Job) :=
  chain.filter (fun n => !n.2.done)

/-- A job list in memory: job 5 (done) at address 10, then job 6 at address 20,
then job 8 (done) at address 30. -/
def sampleHeap : JobHeap := fun a =>
  if a = 10 then some ⟨⟨5, true⟩, some 20⟩
  else if a = 20 then some ⟨⟨6, false⟩, some 30⟩
  else if a = 30 then some ⟨⟨8, true⟩, none⟩
  else none

/-! ## Lemmas on the tokenizer -/

theorem readRaw_cons (quote : Bool) (c : Char) (rest buf : List Char)
    (h1 : (quote || !isTerminator c) = true) (h2 : c ≠ BACKSLASH) :
    readRaw quote (c :: rest) buf
      = readRaw (if c = QUOTE then !quote else quote) rest (buf ++ [c]) := by
  cases rest <;> simp only [readRaw, h1, h2, if_true, if_false]

theorem readRaw_stop (c : Char) (rest buf : List Char) (h1 : isTerminator c = true) :
    readRaw false (c :: rest) buf = ⟨buf, some c, rest⟩ := by
  cases rest <;> simp [readRaw, h1]

theorem copyTok_cons (quote : Bool) (k : Nat) (c : Char) (rest acc : List Char)
    (h1 : (quote || decide (0 < k)) = true) (h2 : c ≠ QUOTE) :
    copyTok quote k (c :: rest) acc
      = copyTok quote (k - 1) rest
          (acc ++ if (quote && isGlobMeta c) = true then [BACKSLASH, c] else [c]) := by
  rw [copyTok]
  simp only [h1, h2, if_true, if_false]
  split <;> rfl

theorem copyTok_open (k : Nat) (rest acc : List Char) (h1 : 0 < k) :
    copyTok false k (QUOTE :: rest) acc = copyTok true (k - 1) rest acc := by
  rw [copyTok]
  simp [h1]

theorem copyTok_close (k : Nat) (rest acc : List Char) :
    copyTok true k (QUOTE :: rest) acc
      = copyTok false (stopOffset (QUOTE :: rest) - 1) rest acc := by
  rw [copyTok]
  simp

theorem readRaw_quoted (s rest buf : List Char) (hq : QUOTE ∉ s) (hb : BACKSLASH ∉ s) :
    readRaw true (s ++ rest) buf = readRaw true rest (buf ++ s) := by
  induction s generalizing buf with
  | nil => simp
  | cons c s ih =>
    simp only [List.mem_cons, not_or] at hq hb
    have h1 : c ≠ BACKSLASH := fun h => hb.1 h.symm
    have h2 : c ≠ QUOTE := fun h => hq.1 h.symm
    rw [List.cons_append, readRaw_cons _ _ _ _ (by simp) h1, if_neg h2, ih _ hq.2 hb.2]
    simp

theorem copyTok_quoted (s rest acc : List Char) (k : Nat) (hq : QUOTE ∉ s) :
    copyTok true k (s ++ rest) acc = copyTok true (k - s.length) rest (acc ++ escape s) := by
  induction s generalizing acc k with
  | nil => simp [escape]
  | cons c s ih =>
    simp only [List.mem_cons, not_or] at hq
    have h2 : c ≠ QUOTE := fun h => hq.1 h.symm
    rw [List.cons_append, copyTok_cons _ _ _ _ _ (by simp) h2, ih _ _ hq.2]
    by_cases hm : isGlobMeta c = true
    · simp [escape, hm, Nat.sub_sub, Nat.add_comm]
    · simp [escape, hm, Nat.sub_sub, Nat.add_comm]

theorem unescape_cons (c : Char) (rest : List Char) (hc : c ≠ BACKSLASH) :
    unescape (c :: rest) = c :: unescape rest := by
  cases rest <;> simp [unescape, hc]

theorem unescape_backslash (d : Char) (rest : List Char) :
    unescape (BACKSLASH :: d :: rest) = d :: unescape rest := by
  simp [unescape]

theorem unescape_escape (s : List Char) : unescape (escape s) = s := by
  induction s with
  | nil => rfl
  | cons c s ih =>
    by_cases hm : isGlobMeta c = true
    · rw [escape, if_pos hm, unescape_backslash, ih]
    · have hc : c ≠ BACKSLASH := by
        intro h
        apply hm
        rw [h]
        decide
      rw [escape, if_neg hm, unescape_cons _ _ hc, ih]

theorem cstr_eq_self (s : List Char) (hn : NUL ∉ s) : cstr s = s := by
  unfold cstr
  rw [List.takeWhile_eq_self_iff]
  intro c hc
  simp only [bne_iff_ne, ne_eq]
  intro h
  exact hn (h ▸ hc)

theorem nul_not_mem_escape (s : List Char) (hn : NUL ∉ s) : NUL ∉ escape s := by
  induction s with
  | nil => simp [escape]
  | cons c s ih =>
    simp only [List.mem_cons, not_or] at hn
    have hB : ¬ NUL = BACKSLASH := by decide
    by_cases hm : isGlobMeta c = true
    · simp [escape, hm, hn.1, hB, ih hn.2]
    · simp [escape, hm, hn.1, ih hn.2]

theorem stopOffset_cons_ne_zero (c : Char) (l : List Char) (hd : isDelim c = false) :
    stopOffset (c :: l) ≠ 0 := by
  unfold stopOffset
  simp only [strpbrk]
  split
  · simp
  · simp only [hd, Bool.false_eq_true, if_false]
    cases strpbrk l <;> simp

theorem tokLoop_token (glob : Glob) (fuel : Nat) (c : Char) (rest written rest' : List Char)
    (h0 : stopOffset (c :: rest) ≠ 0)
    (hc : copyTok false (stopOffset (c :: rest)) (c :: rest) [] = some (written, rest')) :
    tokLoop glob (fuel + 1) (c :: rest)
      = (tokLoop glob fuel rest').map (expand glob written ++ ·) := by
  rw [tokLoop]
  simp only [h0, ne_eq, not_false_eq_true, if_true, hc]

theorem expand_globNoMatch (written : List Char) :
    expand globNoMatch written = [Token.lit (unescape (cstr written))] := by
  have h : cstr (cstr written) = cstr written := by
    unfold cstr
    rw [List.takeWhile_eq_self_iff]
    intro c hc
    exact @List.mem_takeWhile_imp _ (fun x => x != NUL) _ _ hc
  simp [expand, globNoMatch, h]

theorem tokLoop_quoted (s : List Char) (fuel : Nat) (hq : QUOTE ∉ s) (hn : NUL ∉ s) :
    tokLoop globNoMatch (fuel + 1) (QUOTE :: (s ++ [QUOTE])) = some [Token.lit s] := by
  have h0 : stopOffset (QUOTE :: (s ++ [QUOTE])) ≠ 0 :=
    stopOffset_cons_ne_zero _ _ (by decide)
  have hcopy : copyTok false (stopOffset (QUOTE :: (s ++ [QUOTE]))) (QUOTE :: (s ++ [QUOTE])) []
      = some (escape s, []) := by
    rw [copyTok_open _ _ _ (Nat.pos_of_ne_zero h0), copyTok_quoted _ _ _ _ hq, copyTok_close,
      copyTok]
    simp
    decide
  have hexp : expand globNoMatch (escape s) = [Token.lit s] := by
    rw [expand_globNoMatch, cstr_eq_self _ (nul_not_mem_escape s hn), unescape_escape]
  rw [tokLoop_token _ _ _ _ _ _ h0 hcopy, hexp, tokLoop]
  simp

/-- C1 (as amended). A fully single-quoted token is read back verbatim: for
every text `s` without single quote, backslash and NUL, the line made of `s`
in single quotes and a newline yields exactly one token, the literal `s`,
whatever glob metacharacters, operator characters or spaces `s` contains. -/
theorem readline_single_quoted (s more : List Char)
    (hq : QUOTE ∉ s) (hb : BACKSLASH ∉ s) (hn : NUL ∉ s) :
    readline globNoMatch (QUOTE :: (s ++ QUOTE :: NEWLINE :: more))
      = ReadResult.ok ⟨[Token.lit s], false, false, more⟩ := by
  have hraw : readRaw false (QUOTE :: (s ++ QUOTE :: NEWLINE :: more)) []
      = ⟨QUOTE :: (s ++ [QUOTE]), some NEWLINE, more⟩ := by
    rw [readRaw_cons _ _ _ _ (by decide) (by decide), if_pos rfl]
    simp only [Bool.not_false, List.nil_append]
    rw [readRaw_quoted _ _ _ hq hb, readRaw_cons _ _ _ _ (by decide) (by decide), if_pos rfl]
    simp only [Bool.not_true]
    rw [readRaw_stop _ _ _ (by decide)]
    simp
  have hlen : (QUOTE :: (s ++ [QUOTE])).length = (s.length + 1) + 1 := by simp
  unfold readline
  simp only [hraw, hlen]
  rw [tokLoop_quoted _ _ hq hn]
  simp
  decide

/-- C1, witness: the quoted text `a*|b c`. -/
theorem readline_single_quoted_witness :
    readline globNoMatch (QUOTE :: ("a*|b c".toList ++ QUOTE :: NEWLINE :: []))
      = ReadResult.ok ⟨[Token.lit "a*|b c".toList], false, false, []⟩ :=
  readline_single_quoted "a*|b c".toList [] (by decide) (by decide) (by decide)

/-- C1, counterexample: the quoted text `a\b` contains no single quote, yet the
only token read is `ab`, not `a\b`. -/
theorem readline_single_quoted_backslash :
    QUOTE ∉ ['a', BACKSLASH, 'b'] ∧
    (readline globNoMatch (QUOTE :: (['a', BACKSLASH, 'b'] ++ [QUOTE, NEWLINE]))).tokens
      = some [Token.lit ['a', 'b']] ∧
    (readline globNoMatch (QUOTE :: (['a', BACKSLASH, 'b'] ++ [QUOTE, NEWLINE]))).tokens
      ≠ some [Token.lit ['a', BACKSLASH, 'b']] := by
  decide

theorem readRaw_escape (quote : Bool) (d : Char) (rest buf : List Char) :
    readRaw quote (BACKSLASH :: d :: rest) buf = readRaw quote rest (buf ++ [QUOTE, d, QUOTE]) := by
  have h : isTerminator BACKSLASH = false := by decide
  simp [readRaw, h]

/-- An escaped character other than the single quote and NUL is read as the
one-character literal, like the same character in single quotes. -/
theorem readline_escaped (c : Char) (more : List Char) (hq : c ≠ QUOTE) (hn : c ≠ NUL) :
    readline globNoMatch (BACKSLASH :: c :: NEWLINE :: more)
      = ReadResult.ok ⟨[Token.lit [c]], false, false, more⟩ := by
  have hraw : readRaw false (BACKSLASH :: c :: NEWLINE :: more) []
      = ⟨QUOTE :: ([c] ++ [QUOTE]), some NEWLINE, more⟩ := by
    rw [readRaw_escape, readRaw_stop _ _ _ (by decide)]
    simp
  have hlen : (QUOTE :: ([c] ++ [QUOTE])).length = (1 + 1) + 1 := by simp
  unfold readline
  simp only [hraw, hlen]
  rw [tokLoop_quoted [c] _ (by simpa using hq.symm) (by simpa using hn.symm)]
  simp
  decide

/-- C2, the failing input: on the line made of a backslash, a single quote
and a newline the first pass stores three single quotes, the second pass
ends it with `quote` still set and runs past `linebuf + size`; no token `'`
is produced. -/
theorem readline_escaped_quote_overrun :
    readRaw false [BACKSLASH, QUOTE, NEWLINE] [] = ⟨[QUOTE, QUOTE, QUOTE], some NEWLINE, []⟩ ∧
    readline globNoMatch [BACKSLASH, QUOTE, NEWLINE] = ReadResult.overrun := by
  decide


/-! ## Operator detection -/

theorem isOrdinary_spec {c : Char} (h : isOrdinary c = true) :
    c ≠ QUOTE ∧ isGlobMeta c = false ∧ isTerminator c = false ∧ isDelim c = false := by
  simpa [isOrdinary, and_assoc] using h

theorem ne_backslash_of_not_meta {c : Char} (h : isGlobMeta c = false) : c ≠ BACKSLASH := by
  intro hc
  rw [hc] at h
  exact absurd h (by decide)

theorem ne_nul_of_not_meta {c : Char} (h : isGlobMeta c = false) : c ≠ NUL := by
  intro hc
  rw [hc] at h
  exact absurd h (by decide)

theorem isDelim_cases {c : Char} (h : isDelim c = true) :
    c = '>' ∨ c = '|' ∨ c = '<' ∨ c = ' ' := by
  simpa [isDelim, or_assoc] using h

theorem isDelim_plain {c : Char} (h : isDelim c = true) :
    c ≠ QUOTE ∧ c ≠ BACKSLASH ∧ c ≠ NUL ∧ isTerminator c = false ∧ isOrdinary c = false := by
  rcases isDelim_cases h with h | h | h | h <;> subst h <;> decide

theorem readRaw_plain (l more buf : List Char)
    (h : ∀ c ∈ l, isOrdinary c = true ∨ isDelim c = true) :
    readRaw false (l ++ NEWLINE :: more) buf = ⟨buf ++ l, some NEWLINE, more⟩ := by
  induction l generalizing buf with
  | nil => simpa using readRaw_stop NEWLINE more buf (by decide)
  | cons c l ih =>
    have hc := h c (List.mem_cons_self _ _)
    have hl : ∀ d ∈ l, isOrdinary d = true ∨ isDelim d = true :=
      fun d hd => h d (List.mem_cons_of_mem _ hd)
    have hfacts : c ≠ QUOTE ∧ c ≠ BACKSLASH ∧ isTerminator c = false := by
      rcases hc with hc | hc
      · have := isOrdinary_spec hc
        exact ⟨this.1, ne_backslash_of_not_meta this.2.1, this.2.2.1⟩
      · have := isDelim_plain hc
        exact ⟨this.1, this.2.1, this.2.2.2.1⟩
    rw [List.cons_append, readRaw_cons _ _ _ _ (by simp [hfacts.2.2]) hfacts.2.1,
      if_neg hfacts.1, ih _ hl]
    simp

theorem stopOffset_delim (c : Char) (rest : List Char) (h : isDelim c = true) :
    stopOffset (c :: rest) = 0 := by
  have hn := (isDelim_plain h).2.2.1
  simp [stopOffset, strpbrk, hn, h]

theorem stopOffset_ordinary (c : Char) (rest : List Char) (h : isOrdinary c = true) :
    stopOffset (c :: rest) = stopOffset rest + 1 := by
  have hs := isOrdinary_spec h
  have hn := ne_nul_of_not_meta hs.2.1
  simp only [stopOffset, strpbrk, hn, if_false, hs.2.2.2, Bool.false_eq_true, List.length_cons]
  cases strpbrk rest <;> simp

theorem copyTok_run (l acc : List Char)
    (h : ∀ c ∈ l, isOrdinary c = true ∨ isDelim c = true) :
    copyTok false (stopOffset l) l acc
      = some (acc ++ l.takeWhile isOrdinary, l.dropWhile isOrdinary) := by
  induction l generalizing acc with
  | nil => simp [copyTok, stopOffset, strpbrk]
  | cons c l ih =>
    have hl : ∀ d ∈ l, isOrdinary d = true ∨ isDelim d = true :=
      fun d hd => h d (List.mem_cons_of_mem _ hd)
    by_cases hc : isOrdinary c = true
    · have hs := isOrdinary_spec hc
      rw [stopOffset_ordinary _ _ hc, copyTok_cons _ _ _ _ _ (by simp) hs.1]
      simp only [Nat.add_sub_cancel, Bool.false_and, Bool.false_eq_true, if_false]
      rw [ih _ hl]
      simp [List.takeWhile_cons, List.dropWhile_cons, hc]
    · have hd : isDelim c = true := by
        rcases h c (List.mem_cons_self _ _) with h1 | h1
        · exact absurd h1 hc
        · exact h1
      rw [stopOffset_delim _ _ hd, copyTok]
      simp [List.takeWhile_cons, List.dropWhile_cons, hc]

theorem unescape_plain (l : List Char) (h : BACKSLASH ∉ l) : unescape l = l := by
  induction l with
  | nil => rfl
  | cons c l ih =>
    simp only [List.mem_cons, not_or] at h
    rw [unescape_cons _ _ (fun e => h.1 e.symm), ih h.2]

theorem expand_ordinary (glob : Glob)
    (hglob : ∀ p : List Char, (∀ c ∈ p, isOrdinary c = true) → glob p = some [p])
    (l : List Char) (h : ∀ c ∈ l, isOrdinary c = true) :
    expand glob l = [Token.lit l] := by
  have hn : NUL ∉ l := fun hm => ne_nul_of_not_meta (isOrdinary_spec (h _ hm)).2.1 rfl
  have hb : BACKSLASH ∉ l := fun hm => ne_backslash_of_not_meta (isOrdinary_spec (h _ hm)).2.1 rfl
  have hc := cstr_eq_self _ hn
  simp [expand, hc, hglob l h, unescape_plain _ hb]

theorem refLexFrom_ordinary (cur : List Char) (c : Char) (rest : List Char)
    (h : isOrdinary c = true) :
    refLexFrom cur (c :: rest) = refLexFrom (cur ++ [c]) rest := by
  have hd := (isOrdinary_spec h).2.2.2
  have h1 : c ≠ '|' := by
    intro e
    rw [e] at hd
    exact absurd hd (by decide)
  have h2 : c ≠ '<' := by
    intro e
    rw [e] at hd
    exact absurd hd (by decide)
  have h3 : c ≠ '>' := by
    intro e
    rw [e] at hd
    exact absurd hd (by decide)
  have h4 : c ≠ ' ' := by
    intro e
    rw [e] at hd
    exact absurd hd (by decide)
  cases rest <;> simp [refLexFrom, h1, h2, h3, h4]

theorem refLexFrom_run (cur l : List Char) :
    refLexFrom cur l
      = refLexFrom (cur ++ l.takeWhile isOrdinary) (l.dropWhile isOrdinary) := by
  induction l generalizing cur with
  | nil => simp
  | cons c l ih =>
    by_cases hc : isOrdinary c = true
    · rw [refLexFrom_ordinary _ _ _ hc, ih]
      simp [List.takeWhile_cons, List.dropWhile_cons, hc]
    · simp [List.takeWhile_cons, List.dropWhile_cons, hc]

theorem flush_nil : flush [] = [] := rfl

theorem refLexFrom_delim (cur : List Char) (c : Char) (rest : List Char)
    (h : isDelim c = true) :
    refLexFrom cur (c :: rest) = flush cur ++ refLexFrom [] (c :: rest) := by
  rcases isDelim_cases h with h | h | h | h <;> subst h <;>
    cases rest <;> simp [refLexFrom, flush_nil]
  split <;> simp

theorem refLexFrom_pipe (rest : List Char) :
    refLexFrom [] ('|' :: rest) = Token.pipe :: refLexFrom [] rest := by
  cases rest <;> simp [refLexFrom, flush_nil]

theorem refLexFrom_redin (rest : List Char) :
    refLexFrom [] ('<' :: rest) = Token.redin :: refLexFrom [] rest := by
  cases rest <;> simp [refLexFrom, flush_nil]

theorem refLexFrom_space (rest : List Char) :
    refLexFrom [] (' ' :: rest) = refLexFrom [] rest := by
  cases rest <;> simp [refLexFrom, flush_nil]

theorem tokLoop_delim (glob : Glob) (fuel : Nat) (c : Char) (rest : List Char)
    (h : isDelim c = true) :
    tokLoop glob (fuel + 1) (c :: rest)
      = if c = '|' then (tokLoop glob fuel rest).map (Token.pipe :: ·)
        else if c = '<' then (tokLoop glob fuel rest).map (Token.redin :: ·)
        else if c = '>' then
          if rest.headD NUL = '>' then (tokLoop glob fuel rest.tail).map (Token.redapp :: ·)
          else (tokLoop glob fuel rest).map (Token.redout :: ·)
        else tokLoop glob fuel rest := by
  rw [tokLoop]
  simp [stopOffset_delim _ _ h]

theorem tokLoop_refLex (glob : Glob)
    (hglob : ∀ p : List Char, (∀ c ∈ p, isOrdinary c = true) → glob p = some [p])
    (fuel : Nat) (l : List Char) (hlen : l.length ≤ fuel)
    (h : ∀ c ∈ l, isOrdinary c = true ∨ isDelim c = true) :
    tokLoop glob fuel l = some (refLexFrom [] l) := by
  induction fuel using Nat.strong_induction_on generalizing l with
  | _ fuel ih =>
    cases l with
    | nil => cases fuel <;> simp [tokLoop, refLexFrom, flush_nil]
    | cons c rest =>
      cases fuel with
      | zero => simp at hlen
      | succ f =>
        have hrest : ∀ d ∈ rest, isOrdinary d = true ∨ isDelim d = true :=
          fun d hd => h d (List.mem_cons_of_mem _ hd)
        have hrl : rest.length ≤ f := by simpa using hlen
        by_cases hc : isOrdinary c = true
        · have h0 : stopOffset (c :: rest) ≠ 0 := by
            rw [stopOffset_ordinary _ _ hc]
            exact Nat.succ_ne_zero _
          have hdl : (List.dropWhile isOrdinary (c :: rest)).length ≤ f := by
            simp only [List.dropWhile_cons, hc, if_true]
            exact le_trans (List.dropWhile_sublist _).length_le hrl
          have hdall : ∀ d ∈ List.dropWhile isOrdinary (c :: rest),
              isOrdinary d = true ∨ isDelim d = true :=
            fun d hd => h d ((List.dropWhile_sublist _).subset hd)
          rw [tokLoop_token _ _ _ _ _ _ h0 (copyTok_run (c :: rest) [] h),
            ih f (Nat.lt_succ_self _) _ hdl hdall, List.nil_append,
            expand_ordinary glob hglob _ (fun d hd => List.mem_takeWhile_imp hd),
            refLexFrom_run [] (c :: rest), List.nil_append]
          have hne : List.takeWhile isOrdinary (c :: rest) ≠ [] := by
            simp [List.takeWhile_cons, hc]
          have hfl : flush (List.takeWhile isOrdinary (c :: rest))
              = [Token.lit (List.takeWhile isOrdinary (c :: rest))] := by
            simp [flush, hne]
          cases hdw : List.dropWhile isOrdinary (c :: rest) with
          | nil => simp [refLexFrom, hfl, flush_nil]
          | cons d r =>
            have hdd : isDelim d = true := by
              have hmem : d ∈ List.dropWhile isOrdinary (c :: rest) := by
                rw [hdw]
                exact List.mem_cons_self _ _
              have hno : ¬ isOrdinary d = true := by
                have := List.head_dropWhile_not isOrdinary (c :: rest) (by rw [hdw]; simp)
                simpa [hdw] using this
              rcases hdall d hmem with h1 | h1
              · exact absurd h1 hno
              · exact h1
            rw [refLexFrom_delim (List.takeWhile isOrdinary (c :: rest)) _ _ hdd, hfl]
            simp
        · have hd : isDelim c = true := by
            rcases h c (List.mem_cons_self _ _) with h1 | h1
            · exact absurd h1 hc
            · exact h1
          rw [tokLoop_delim _ _ _ _ hd]
          rcases isDelim_cases hd with e | e | e | e
          · subst e
            cases rest with
            | nil => simp [tokLoop, refLexFrom, flush_nil, NUL]
            | cons d r =>
              have hr : r.length ≤ f := by
                simp only [List.length_cons] at hrl
                omega
              have hrall : ∀ x ∈ r, isOrdinary x = true ∨ isDelim x = true :=
                fun x hx => hrest x (List.mem_cons_of_mem _ hx)
              by_cases hdd : d = '>'
              · subst hdd
                simp [refLexFrom, flush_nil, ih f (Nat.lt_succ_self _) r hr hrall]
              · simp [refLexFrom, flush_nil, hdd, ih f (Nat.lt_succ_self _) _ hrl hrest]
          · subst e
            simp [refLexFrom_pipe, ih f (Nat.lt_succ_self _) rest hrl hrest]
          · subst e
            simp [refLexFrom_redin, ih f (Nat.lt_succ_self _) rest hrl hrest]
          · subst e
            simp [refLexFrom_space, ih f (Nat.lt_succ_self _) rest hrl hrest]

theorem refLex_gt_run (k : Nat) :
    refLex (List.replicate k '>')
      = List.replicate (k / 2) Token.redapp ++ List.replicate (k % 2) Token.redout := by
  induction k using Nat.strong_induction_on with
  | _ k ih =>
    match k with
    | 0 => rfl
    | 1 => rfl
    | k + 2 =>
      have h := ih k (by omega)
      have e1 : (k + 2) / 2 = k / 2 + 1 := by omega
      have e2 : (k + 2) % 2 = k % 2 := by omega
      unfold refLex at h ⊢
      rw [e1, e2, List.replicate_succ, List.replicate_succ, List.replicate_succ,
        List.cons_append, ← h]
      simp [refLexFrom, flush_nil]

/-- C3. Operator detection: on every line made only of ordinary characters,
spaces and the characters `|`, `<`, `>`, ended by a newline, `readline`
returns 0 and stores exactly the reference lexing of the line: one literal
per maximal run of ordinary characters, Pipe, RedirectIn, greedy
RedirectAppend for `>>`, RedirectOut for a lone `>`, nothing for spaces, in
input order; in the reference lexing a run of k `>` is k / 2 RedirectAppend
markers followed by k mod 2 RedirectOut markers. The matcher is any `glob`
that reports a pattern of ordinary characters as it is. -/
theorem readline_operators (glob : Glob)
    (hglob : ∀ p : List Char, (∀ c ∈ p, isOrdinary c = true) → glob p = some [p])
    (l more : List Char) (h : ∀ c ∈ l, isOrdinary c = true ∨ isDelim c = true) :
    readline glob (l ++ NEWLINE :: more) = ReadResult.ok ⟨refLex l, false, false, more⟩ ∧
    ∀ k, refLex (List.replicate k '>')
      = List.replicate (k / 2) Token.redapp ++ List.replicate (k % 2) Token.redout := by
  refine ⟨?_, refLex_gt_run⟩
  unfold readline
  simp only [readRaw_plain l more [] h, List.nil_append]
  rw [tokLoop_refLex glob hglob _ _ (Nat.le_refl _) h]
  simp [refLex]
  decide

/-- C3, witness: the line `ls -l|wc>>>x <y`. -/
theorem readline_operators_witness :
    readline globNoMatch ("ls -l|wc>>>x <y".toList ++ NEWLINE :: [])
      = ReadResult.ok ⟨refLex "ls -l|wc>>>x <y".toList, false, false, []⟩ ∧
    ∀ k, refLex (List.replicate k '>')
      = List.replicate (k / 2) Token.redapp ++ List.replicate (k % 2) Token.redout :=
  readline_operators globNoMatch (fun _ _ => rfl) "ls -l|wc>>>x <y".toList [] (by decide)

/-! ## Glob expansion without a match -/

/-- C4 (as amended). When the matcher reports the pattern itself, the
expansion step emits exactly one token: the pattern with its backslash
escapes removed; it equals the pattern when the pattern has no backslash. -/
theorem expand_no_match (glob : Glob) (written : List Char)
    (h : glob (cstr written) = some [cstr written]) :
    expand glob written = [Token.lit (unescape (cstr written))] ∧
    (BACKSLASH ∉ cstr written → expand glob written = [Token.lit (cstr written)]) := by
  have hcc : cstr (cstr written) = cstr written := by
    unfold cstr
    rw [List.takeWhile_eq_self_iff]
    intro c hc
    exact @List.mem_takeWhile_imp _ (fun x => x != NUL) _ _ hc
  have h1 : expand glob written = [Token.lit (unescape (cstr written))] := by
    simp [expand, h, hcc]
  exact ⟨h1, fun hb => by rw [h1, unescape_plain _ hb]⟩

/-- C4, witness: the pattern `a*`. -/
theorem expand_no_match_witness :
    expand globNoMatch ['a', '*'] = [Token.lit (unescape (cstr ['a', '*']))] ∧
    (BACKSLASH ∉ cstr ['a', '*'] → expand globNoMatch ['a', '*'] = [Token.lit (cstr ['a', '*'])]) :=
  expand_no_match globNoMatch ['a', '*'] rfl

/-- C4, counterexample: for the quoted text `*` the tokenizer hands the
pattern `\*` to the expander; with no match the one token emitted is `*`,
which is not the pattern. -/
theorem expand_no_match_escaped :
    copyTok false (stopOffset [QUOTE, '*', QUOTE]) [QUOTE, '*', QUOTE] []
      = some ([BACKSLASH, '*'], []) ∧
    globNoMatch (cstr [BACKSLASH, '*']) = some [cstr [BACKSLASH, '*']] ∧
    expand globNoMatch [BACKSLASH, '*'] = [Token.lit ['*']] ∧
    expand globNoMatch [BACKSLASH, '*'] ≠ [Token.lit (cstr [BACKSLASH, '*'])] := by
  decide


/-! ## The argument splitter -/

theorem tokens_induction {P : List Token → Prop} (hnil : P [])
    (hplain : ∀ s rest, s.isRedir = false → P rest → P (s :: rest))
    (hdangling : ∀ s, s.isRedir = true → P [s])
    (hpair : ∀ s f rest, s.isRedir = true → P rest → P (s :: f :: rest)) :
    ∀ l, P l := by
  have key : ∀ n (l : List Token), l.length ≤ n → P l := by
    intro n
    induction n with
    | zero =>
      intro l hl
      cases l with
      | nil => exact hnil
      | cons s rest => simp at hl
    | succ n ih =>
      intro l hl
      cases l with
      | nil => exact hnil
      | cons s rest =>
        simp only [List.length_cons] at hl
        by_cases hs : s.isRedir = true
        · cases rest with
          | nil => exact hdangling s hs
          | cons f rest' =>
            simp only [List.length_cons] at hl
            exact hpair s f rest' hs (ih rest' (by omega))
        · exact hplain s rest (by simpa using hs) (ih rest (by omega))
  exact fun l => key l.length l (Nat.le_refl _)

theorem readargsLoop_plain (env : Env) (hist : List Event) (s : Token) (rest : List Token)
    (rdin rdout : Int) (args : List Token) (ev : List Event) (hs : s.isRedir = false) :
    readargsLoop env hist (s :: rest) rdin rdout args ev
      = readargsLoop env hist rest rdin rdout (args ++ [s]) ev := by
  cases rest <;> simp [readargsLoop, hs]

theorem readargsLoop_dangling (env : Env) (hist : List Event) (s : Token)
    (rdin rdout : Int) (args : List Token) (ev : List Event) (hs : s.isRedir = true) :
    readargsLoop env hist [s] rdin rdout args ev
      = ⟨-1, rdin, rdout, args,
          closeIfPos rdout (closeIfPos rdin ev) ++ [Event.syntaxError "newline".toList]⟩ := by
  simp [readargsLoop, hs]

theorem readargsLoop_out (env : Env) (hist : List Event) (s f : Token) (rest : List Token)
    (rdin rdout : Int) (args : List Token) (ev : List Event)
    (hs : s.isRedir = true) (ho : s.isRedirOut = true) :
    readargsLoop env hist (s :: f :: rest) rdin rdout args ev
      = if env.openFile (hist ++ closeIfPos rdout ev) f.text (outFlags s) < 0 then
          ⟨-1, rdin, env.openFile (hist ++ closeIfPos rdout ev) f.text (outFlags s), args,
            closeIfPos rdin (closeIfPos rdout ev ++ [Event.openFile f.text (outFlags s)
              (env.openFile (hist ++ closeIfPos rdout ev) f.text (outFlags s))])
              ++ [Event.errfile f.text]⟩
        else readargsLoop env hist rest rdin
          (env.openFile (hist ++ closeIfPos rdout ev) f.text (outFlags s)) args
          (closeIfPos rdout ev ++ [Event.openFile f.text (outFlags s)
            (env.openFile (hist ++ closeIfPos rdout ev) f.text (outFlags s))]) := by
  simp [readargsLoop, hs, ho]

theorem readargsLoop_in (env : Env) (hist : List Event) (s f : Token) (rest : List Token)
    (rdin rdout : Int) (args : List Token) (ev : List Event)
    (hs : s.isRedir = true) (ho : s.isRedirOut = false) :
    readargsLoop env hist (s :: f :: rest) rdin rdout args ev
      = if env.openFile (hist ++ closeIfPos rdin ev) f.text O_RDONLY < 0 then
          ⟨-1, env.openFile (hist ++ closeIfPos rdin ev) f.text O_RDONLY, rdout, args,
            closeIfPos rdout (closeIfPos rdin ev ++ [Event.openFile f.text O_RDONLY
              (env.openFile (hist ++ closeIfPos rdin ev) f.text O_RDONLY)])
              ++ [Event.errfile f.text]⟩
        else readargsLoop env hist rest
          (env.openFile (hist ++ closeIfPos rdin ev) f.text O_RDONLY) rdout args
          (closeIfPos rdin ev ++ [Event.openFile f.text O_RDONLY
            (env.openFile (hist ++ closeIfPos rdin ev) f.text O_RDONLY)]) := by
  simp [readargsLoop, hs, ho]

theorem readargsLoop_nil (env : Env) (hist : List Event)
    (rdin rdout : Int) (args : List Token) (ev : List Event) :
    readargsLoop env hist [] rdin rdout args ev
      = if args.getLast? = some Token.pipe then
          ⟨-1, if rdin < 0 then 0 else rdin, if rdout < 0 then 1 else rdout, args,
            ev ++ [Event.syntaxError "|".toList]⟩
        else
          ⟨if args.length ≠ 0 then 0 else -1, if rdin < 0 then 0 else rdin,
            if rdout < 0 then 1 else rdout, args, ev⟩ := by
  simp [readargsLoop]

theorem cleanArgs_plain (s : Token) (rest : List Token) (hs : s.isRedir = false) :
    cleanArgs (s :: rest) = s :: cleanArgs rest := by
  cases rest <;> simp [cleanArgs, hs]

theorem cleanArgs_pair (s f : Token) (rest : List Token) (hs : s.isRedir = true) :
    cleanArgs (s :: f :: rest) = cleanArgs rest := by
  simp [cleanArgs, hs]

theorem cleanArgs_dangling (s : Token) (hs : s.isRedir = true) : cleanArgs [s] = [] := by
  simp [cleanArgs, hs]

theorem readargsLoop_args (env : Env) (hist : List Event) (tokens : List Token) :
    ∀ (rdin rdout : Int) (args : List Token) (ev : List Event),
      (readargsLoop env hist tokens rdin rdout args ev).ret = 0 →
      (readargsLoop env hist tokens rdin rdout args ev).args = args ++ cleanArgs tokens := by
  induction tokens using tokens_induction with
  | hnil =>
    intro rdin rdout args ev h
    rw [readargsLoop_nil] at h ⊢
    split <;> simp [cleanArgs]
  | hplain s rest hs ih =>
    intro rdin rdout args ev h
    rw [readargsLoop_plain _ _ _ _ _ _ _ _ hs] at h ⊢
    rw [ih _ _ _ _ h, cleanArgs_plain _ _ hs]
    simp
  | hdangling s hs =>
    intro rdin rdout args ev h
    rw [readargsLoop_dangling _ _ _ _ _ _ _ hs] at h
    simp at h
  | hpair s f rest hs ih =>
    intro rdin rdout args ev h
    rw [cleanArgs_pair _ _ _ hs]
    by_cases ho : s.isRedirOut = true
    · rw [readargsLoop_out _ _ _ _ _ _ _ _ _ hs ho] at h ⊢
      split at h
      · simp at h
      · rename_i hfd
        rw [if_neg hfd]
        exact ih _ _ _ _ h
    · have ho' : s.isRedirOut = false := by simpa using ho
      rw [readargsLoop_in _ _ _ _ _ _ _ _ _ hs ho'] at h ⊢
      split at h
      · simp at h
      · rename_i hfd
        rw [if_neg hfd]
        exact ih _ _ _ _ h

/-- C5. Clean argument vector: whenever `readargs` returns 0, `args` is the
token sequence with every redirection operator and the token right after it
removed, every other token (literals and Pipe markers) kept in order. -/
theorem readargs_clean_args (env : Env) (hist : List Event) (tokens : List Token)
    (h : (readargs env hist tokens).ret = 0) :
    (readargs env hist tokens).args = cleanArgs tokens := by
  have := readargsLoop_args env hist tokens (-1) (-1) [] [] h
  simpa [readargs] using this

/-- C5, witness: the tokens of `sort < in | uniq > tmp >> out`. -/
theorem readargs_clean_args_witness :
    (readargs envOk [] sampleTokens).ret = 0 ∧
    (readargs envOk [] sampleTokens).args = cleanArgs sampleTokens :=
  ⟨by decide, readargs_clean_args envOk [] sampleTokens (by decide)⟩


/-! ## Descriptors and messages along a trace -/

theorem openFds_append_one (ev : List Event) (e : Event) :
    openFds (ev ++ [e]) = fdStep (openFds ev) e := by
  simp [openFds, List.foldl_append]

theorem openFds_closeIfPos_left (ev : List Event) (a : Int) (l : List Int)
    (h : (openFds ev).Perm (posList a ++ l)) : (openFds (closeIfPos a ev)).Perm l := by
  unfold closeIfPos
  unfold posList at h
  by_cases ha : 0 < a
  · rw [if_pos ha] at h ⊢
    rw [openFds_append_one]
    have := h.erase a
    simpa [fdStep] using this
  · rw [if_neg ha] at h ⊢
    simpa using h

theorem openFds_closeIfPos_right (ev : List Event) (b : Int) (l : List Int)
    (h : (openFds ev).Perm (l ++ posList b)) : (openFds (closeIfPos b ev)).Perm l :=
  openFds_closeIfPos_left ev b l (h.trans List.perm_append_comm)

theorem openFds_open_ok (ev : List Event) (p : List Char) (fl : Nat) (fd : Int) (h : 0 ≤ fd) :
    openFds (ev ++ [Event.openFile p fl fd]) = fd :: openFds ev := by
  rw [openFds_append_one]
  simp [fdStep, h]

theorem openFds_open_failed (ev : List Event) (p : List Char) (fl : Nat) (fd : Int)
    (h : fd < 0) : openFds (ev ++ [Event.openFile p fl fd]) = openFds ev := by
  rw [openFds_append_one]
  simp [fdStep, Int.not_le.mpr h]

theorem posList_pos {fd : Int} (h : 0 < fd) : posList fd = [fd] := by
  simp [posList, h]

theorem reports_closeIfPos (a : Int) (ev : List Event) :
    reports (closeIfPos a ev) = reports ev := by
  unfold closeIfPos
  split <;> simp [reports, Event.isReport]

theorem reports_open (ev : List Event) (p : List Char) (fl : Nat) (fd : Int) :
    reports (ev ++ [Event.openFile p fl fd]) = reports ev := by
  simp [reports, Event.isReport]

theorem opens_closeIfPos (a : Int) (ev : List Event) :
    opens (closeIfPos a ev) = opens ev := by
  unfold closeIfPos
  split <;> simp [opens, Event.openArgs]

theorem opens_open (ev : List Event) (p : List Char) (fl : Nat) (fd : Int) :
    opens (ev ++ [Event.openFile p fl fd]) = opens ev ++ [(p, fl)] := by
  simp [opens, Event.openArgs]

theorem failedOpens_closeIfPos (a : Int) (ev : List Event) :
    failedOpens (closeIfPos a ev) = failedOpens ev := by
  unfold closeIfPos
  split <;> simp [failedOpens, Event.failedPath]

theorem redirections_plain (s : Token) (rest : List Token) (hs : s.isRedir = false) :
    redirections (s :: rest) = redirections rest := by
  cases rest <;> simp [redirections, hs]

theorem redirections_pair (s f : Token) (rest : List Token) (hs : s.isRedir = true) :
    redirections (s :: f :: rest)
      = (f.text, if s.isRedirOut then outFlags s else O_RDONLY) :: redirections rest := by
  simp [redirections, hs]

theorem redirsOk_plain (s : Token) (rest : List Token) (hs : s.isRedir = false) :
    redirsOk (s :: rest) = redirsOk rest := by
  cases rest <;> simp [redirsOk, hs]

theorem redirsOk_pair (s f : Token) (rest : List Token) (hs : s.isRedir = true)
    (h : redirsOk (s :: f :: rest) = true) : f.isLit = true ∧ redirsOk rest = true := by
  simpa [redirsOk, hs] using h

/-- Processing a prefix whose redirections all have a file name, with every
`open` succeeding: the loop reaches the rest of the tokens with the clean
arguments of the prefix collected, no message printed, and the open
descriptors still exactly `rdin` and `rdout`. -/
theorem readargsLoop_prefix (env : Env) (hist : List Event) (pre : List Token)
    (hopen : ∀ h p f, 0 ≤ env.openFile h p f) :
    redirsOk pre = true → ∀ (rdin rdout : Int) (args : List Token) (ev : List Event),
      ∃ rdin' rdout' ev',
        (∀ suf, readargsLoop env hist (pre ++ suf) rdin rdout args ev
          = readargsLoop env hist suf rdin' rdout' (args ++ cleanArgs pre) ev') ∧
        reports ev' = reports ev ∧
        opens ev' = opens ev ++ redirections pre ∧
        ((∀ h p f, env.openFile h p f ≠ 0) →
          (openFds ev).Perm (posList rdin ++ posList rdout) →
          (openFds ev').Perm (posList rdin' ++ posList rdout')) := by
  induction pre using tokens_induction with
  | hnil =>
    intro _ rdin rdout args ev
    exact ⟨rdin, rdout, ev, by simp [cleanArgs], rfl, by simp [redirections], fun _ h => h⟩
  | hplain s rest hs ih =>
    intro hok rdin rdout args ev
    rw [redirsOk_plain _ _ hs] at hok
    obtain ⟨rdin', rdout', ev', h1, h2, h3, h4⟩ := ih hok rdin rdout (args ++ [s]) ev
    refine ⟨rdin', rdout', ev', ?_, h2, ?_, h4⟩
    · intro suf
      rw [List.cons_append, readargsLoop_plain _ _ _ _ _ _ _ _ hs, h1 suf,
        cleanArgs_plain _ _ hs]
      simp
    · rw [h3, redirections_plain _ _ hs]
  | hdangling s hs =>
    intro hok
    simp [redirsOk, hs] at hok
  | hpair s f rest hs ih =>
    intro hok rdin rdout args ev
    have hrest := (redirsOk_pair s f rest hs hok).2
    by_cases ho : s.isRedirOut = true
    · have hfd := hopen (hist ++ closeIfPos rdout ev) f.text (outFlags s)
      obtain ⟨rdin', rdout', ev', h1, h2, h3, h4⟩ := ih hrest rdin
        (env.openFile (hist ++ closeIfPos rdout ev) f.text (outFlags s)) args
        (closeIfPos rdout ev ++ [Event.openFile f.text (outFlags s)
          (env.openFile (hist ++ closeIfPos rdout ev) f.text (outFlags s))])
      refine ⟨rdin', rdout', ev', ?_, ?_, ?_, ?_⟩
      · intro suf
        rw [List.cons_append, List.cons_append, readargsLoop_out _ _ _ _ _ _ _ _ _ hs ho,
          if_neg (Int.not_lt.mpr hfd), h1 suf, cleanArgs_pair _ _ _ hs]
      · rw [h2, reports_open, reports_closeIfPos]
      · rw [h3, opens_open, opens_closeIfPos, redirections_pair _ _ _ hs, if_pos ho]
        simp
      · intro hnz hinv
        apply h4 hnz
        have hpos : 0 < env.openFile (hist ++ closeIfPos rdout ev) f.text (outFlags s) :=
          lt_of_le_of_ne hfd (Ne.symm (hnz _ _ _))
        rw [openFds_open_ok _ _ _ _ hfd, posList_pos hpos]
        have := openFds_closeIfPos_right ev rdout (posList rdin) hinv
        exact (List.Perm.cons _ this).trans (@List.perm_append_comm _ [_] _)
    · have ho' : s.isRedirOut = false := by simpa using ho
      have hfd := hopen (hist ++ closeIfPos rdin ev) f.text O_RDONLY
      obtain ⟨rdin', rdout', ev', h1, h2, h3, h4⟩ := ih hrest
        (env.openFile (hist ++ closeIfPos rdin ev) f.text O_RDONLY) rdout args
        (closeIfPos rdin ev ++ [Event.openFile f.text O_RDONLY
          (env.openFile (hist ++ closeIfPos rdin ev) f.text O_RDONLY)])
      refine ⟨rdin', rdout', ev', ?_, ?_, ?_, ?_⟩
      · intro suf
        rw [List.cons_append, List.cons_append, readargsLoop_in _ _ _ _ _ _ _ _ _ hs ho',
          if_neg (Int.not_lt.mpr hfd), h1 suf, cleanArgs_pair _ _ _ hs]
      · rw [h2, reports_open, reports_closeIfPos]
      · rw [h3, opens_open, opens_closeIfPos, redirections_pair _ _ _ hs]
        simp [ho']
      · intro hnz hinv
        apply h4 hnz
        have hpos : 0 < env.openFile (hist ++ closeIfPos rdin ev) f.text O_RDONLY :=
          lt_of_le_of_ne hfd (Ne.symm (hnz _ _ _))
        rw [openFds_open_ok _ _ _ _ hfd, posList_pos hpos]
        have := openFds_closeIfPos_left ev rdin (posList rdout) hinv
        exact List.Perm.cons _ this


/-! ## Results of the argument splitter -/

/-- C6. Missing redirection file name: when the tokens are `pre` followed by
one final redirection operator, every redirection of `pre` has a literal file
name and every `open` answers with a positive descriptor, `readargs`
returns -1, its only message is the syntax error near `newline`, it has
opened the files of `pre` and no descriptor it opened is left open. -/
theorem readargs_missing_filename (env : Env) (hist : List Event) (pre : List Token)
    (r : Token) (hr : r.isRedir = true) (hok : redirsOk pre = true)
    (hpos : ∀ h p f, 0 < env.openFile h p f) :
    (readargs env hist (pre ++ [r])).ret = -1 ∧
    reports (readargs env hist (pre ++ [r])).events = [Event.syntaxError "newline".toList] ∧
    opens (readargs env hist (pre ++ [r])).events = redirections pre ∧
    openFds (readargs env hist (pre ++ [r])).events = [] := by
  obtain ⟨rdin', rdout', ev', h1, h2, h3, h4⟩ :=
    readargsLoop_prefix env hist pre (fun h p f => le_of_lt (hpos h p f)) hok (-1) (-1) [] []
  have hinv := h4 (fun h p f => ne_of_gt (hpos h p f)) (by simp [openFds, posList])
  have hclosed : (openFds (closeIfPos rdout' (closeIfPos rdin' ev'))).Perm [] :=
    openFds_closeIfPos_right _ _ _
      (by simpa using openFds_closeIfPos_left ev' rdin' (posList rdout') hinv)
  unfold readargs
  rw [h1 [r], readargsLoop_dangling _ _ _ _ _ _ _ hr]
  refine ⟨rfl, ?_, ?_, ?_⟩
  · have hr1 : reports (closeIfPos rdout' (closeIfPos rdin' ev')) = [] := by
      rw [reports_closeIfPos, reports_closeIfPos, h2]
      rfl
    have hr2 : ∀ l : List Event, reports (l ++ [Event.syntaxError "newline".toList])
        = reports l ++ [Event.syntaxError "newline".toList] := by
      intro l
      simp [reports, Event.isReport]
    rw [hr2, hr1]
    rfl
  · have : opens (closeIfPos rdout' (closeIfPos rdin' ev') ++ [Event.syntaxError "newline".toList])
        = opens ev' := by
      rw [← opens_closeIfPos rdin' ev', ← opens_closeIfPos rdout' (closeIfPos rdin' ev')]
      simp [opens, Event.openArgs]
    rw [this, h3]
    simp [opens]
  · rw [openFds_append_one]
    simpa [fdStep] using hclosed

/-- C6, witness: the tokens of `sort < in | uniq > tmp >> out >`. -/
theorem readargs_missing_filename_witness :
    (readargs envOk [] (sampleTokens ++ [Token.redout])).ret = -1 ∧
    reports (readargs envOk [] (sampleTokens ++ [Token.redout])).events
      = [Event.syntaxError "newline".toList] ∧
    opens (readargs envOk [] (sampleTokens ++ [Token.redout])).events
      = redirections sampleTokens ∧
    openFds (readargs envOk [] (sampleTokens ++ [Token.redout])).events = [] :=
  readargs_missing_filename envOk [] sampleTokens Token.redout (by decide) (by decide)
    (fun h _ _ => by
      show (0 : Int) < 3 + (h.length : Int)
      omega)

/-- C9. Result classification: when every redirection has a literal file name
and every `open` succeeds, `readargs` returns 0 exactly when the clean
argument vector is non-empty and does not end in a Pipe marker; its messages
are the single syntax error near `|` when the clean vector ends in a Pipe
marker and none otherwise; with an empty clean vector it returns -1 and
prints nothing. -/
theorem readargs_classification (env : Env) (hist : List Event) (tokens : List Token)
    (hok : redirsOk tokens = true) (hopen : ∀ h p f, 0 ≤ env.openFile h p f) :
    ((readargs env hist tokens).ret = 0 ↔
      cleanArgs tokens ≠ [] ∧ (cleanArgs tokens).getLast? ≠ some Token.pipe) ∧
    reports (readargs env hist tokens).events
      = (if (cleanArgs tokens).getLast? = some Token.pipe
          then [Event.syntaxError "|".toList] else []) ∧
    (cleanArgs tokens = [] →
      (readargs env hist tokens).ret = -1 ∧ reports (readargs env hist tokens).events = []) := by
  obtain ⟨rdin', rdout', ev', h1, h2, _, _⟩ :=
    readargsLoop_prefix env hist tokens hopen hok (-1) (-1) [] []
  have hrun := h1 []
  simp only [List.append_nil, List.nil_append] at hrun
  have hrep : reports ev' = [] := by simpa [reports] using h2
  unfold readargs
  rw [hrun, readargsLoop_nil]
  by_cases hp : (cleanArgs tokens).getLast? = some Token.pipe
  · simp only [hp, if_true]
    refine ⟨?_, ?_, ?_⟩
    · simp
    · have : reports (ev' ++ [Event.syntaxError "|".toList])
          = reports ev' ++ [Event.syntaxError "|".toList] := by
        simp [reports, Event.isReport]
      rw [this, hrep]
      rfl
    · intro he
      rw [he] at hp
      simp at hp
  · simp only [hp, if_false]
    refine ⟨?_, hrep, ?_⟩
    · by_cases hne : cleanArgs tokens = []
      · simp [hne]
      · have : (cleanArgs tokens).length ≠ 0 := by
          simpa [List.length_eq_zero] using hne
        simp [hne, this, hp]
    · intro he
      simp [he, hrep]

/-- C9, witness: the tokens of `sort < in | uniq > tmp >> out`. -/
theorem readargs_classification_witness :
    ((readargs envOk [] sampleTokens).ret = 0 ↔
      cleanArgs sampleTokens ≠ [] ∧ (cleanArgs sampleTokens).getLast? ≠ some Token.pipe) ∧
    reports (readargs envOk [] sampleTokens).events
      = (if (cleanArgs sampleTokens).getLast? = some Token.pipe
          then [Event.syntaxError "|".toList] else []) ∧
    (cleanArgs sampleTokens = [] →
      (readargs envOk [] sampleTokens).ret = -1 ∧
        reports (readargs envOk [] sampleTokens).events = []) :=
  readargs_classification envOk [] sampleTokens (by decide)
    (fun h _ _ => by
      show (0 : Int) ≤ 3 + (h.length : Int)
      omega)


/-! ## Failure of `open` -/

theorem failedOpens_append_one (ev : List Event) (e : Event) :
    failedOpens (ev ++ [e]) = failedOpens ev ++ (e.failedPath).toList := by
  cases h : e.failedPath <;> simp [failedOpens, List.filterMap_append, h]

theorem reports_append_one (ev : List Event) (e : Event) :
    reports (ev ++ [e]) = reports ev ++ (if e.isReport then [e] else []) := by
  cases h : e.isReport <;> simp [reports, List.filter_append, h]

/-- Along the loop of `readargs`, with `open` never answering 0 and the open
descriptors being exactly `rdin` and `rdout`: either no `open` fails, or
exactly one does, and then the loop returns -1 at once with `errfile` for
that path as its last call and nothing left open. -/
theorem readargsLoop_failure (env : Env) (hist : List Event)
    (hnz : ∀ h p f, env.openFile h p f ≠ 0) (tokens : List Token) :
    ∀ (rdin rdout : Int) (args : List Token) (ev : List Event),
      (openFds ev).Perm (posList rdin ++ posList rdout) →
      failedOpens (readargsLoop env hist tokens rdin rdout args ev).events = failedOpens ev ∨
      ∃ p, failedOpens (readargsLoop env hist tokens rdin rdout args ev).events
            = failedOpens ev ++ [p] ∧
          (readargsLoop env hist tokens rdin rdout args ev).ret = -1 ∧
          openFds (readargsLoop env hist tokens rdin rdout args ev).events = [] ∧
          reports (readargsLoop env hist tokens rdin rdout args ev).events
            = reports ev ++ [Event.errfile p] ∧
          (readargsLoop env hist tokens rdin rdout args ev).events.getLast?
            = some (Event.errfile p) := by
  induction tokens using tokens_induction with
  | hnil =>
    intro rdin rdout args ev _
    left
    rw [readargsLoop_nil]
    split
    · simp [failedOpens_append_one, Event.failedPath]
    · rfl
  | hplain s rest hs ih =>
    intro rdin rdout args ev hinv
    rw [readargsLoop_plain _ _ _ _ _ _ _ _ hs]
    exact ih _ _ _ _ hinv
  | hdangling s hs =>
    intro rdin rdout args ev _
    left
    rw [readargsLoop_dangling _ _ _ _ _ _ _ hs]
    simp [failedOpens_append_one, Event.failedPath, failedOpens_closeIfPos]
  | hpair s f rest hs ih =>
    intro rdin rdout args ev hinv
    by_cases ho : s.isRedirOut = true
    · rw [readargsLoop_out _ _ _ _ _ _ _ _ _ hs ho]
      have hc := openFds_closeIfPos_right ev rdout (posList rdin) hinv
      by_cases hfd : env.openFile (hist ++ closeIfPos rdout ev) f.text (outFlags s) < 0
      · right
        rw [if_pos hfd]
        refine ⟨f.text, ?_, rfl, ?_, ?_, ?_⟩
        · simp [failedOpens_append_one, Event.failedPath, failedOpens_closeIfPos, hfd]
        · rw [openFds_append_one]
          have h2 : (openFds (closeIfPos rdout ev ++ [Event.openFile f.text (outFlags s)
              (env.openFile (hist ++ closeIfPos rdout ev) f.text (outFlags s))])).Perm
              (posList rdin ++ []) := by
            rw [openFds_open_failed _ _ _ _ hfd]
            simpa using hc
          simpa [fdStep] using openFds_closeIfPos_left _ _ _ h2
        · simp [reports_append_one, Event.isReport, reports_closeIfPos]
        · simp
      · rw [if_neg hfd]
        have hge : 0 ≤ env.openFile (hist ++ closeIfPos rdout ev) f.text (outFlags s) :=
          Int.not_lt.mp hfd
        have hpos := lt_of_le_of_ne hge (Ne.symm (hnz _ _ _))
        have hinv' : (openFds (closeIfPos rdout ev ++ [Event.openFile f.text (outFlags s)
            (env.openFile (hist ++ closeIfPos rdout ev) f.text (outFlags s))])).Perm
            (posList rdin
              ++ posList (env.openFile (hist ++ closeIfPos rdout ev) f.text (outFlags s))) := by
          rw [openFds_open_ok _ _ _ _ hge, posList_pos hpos]
          exact (List.Perm.cons _ hc).trans (@List.perm_append_comm _ [_] _)
        have := ih rdin _ args _ hinv'
        simpa [failedOpens_append_one, Event.failedPath, failedOpens_closeIfPos, hfd,
          reports_append_one, Event.isReport, reports_closeIfPos] using this
    · have ho' : s.isRedirOut = false := by simpa using ho
      rw [readargsLoop_in _ _ _ _ _ _ _ _ _ hs ho']
      have hc := openFds_closeIfPos_left ev rdin (posList rdout) hinv
      by_cases hfd : env.openFile (hist ++ closeIfPos rdin ev) f.text O_RDONLY < 0
      · right
        rw [if_pos hfd]
        refine ⟨f.text, ?_, rfl, ?_, ?_, ?_⟩
        · simp [failedOpens_append_one, Event.failedPath, failedOpens_closeIfPos, hfd]
        · rw [openFds_append_one]
          have h2 : (openFds (closeIfPos rdin ev ++ [Event.openFile f.text O_RDONLY
              (env.openFile (hist ++ closeIfPos rdin ev) f.text O_RDONLY)])).Perm
              ([] ++ posList rdout) := by
            rw [openFds_open_failed _ _ _ _ hfd]
            simpa using hc
          simpa [fdStep] using openFds_closeIfPos_right _ _ _ h2
        · simp [reports_append_one, Event.isReport, reports_closeIfPos]
        · simp
      · rw [if_neg hfd]
        have hge : 0 ≤ env.openFile (hist ++ closeIfPos rdin ev) f.text O_RDONLY :=
          Int.not_lt.mp hfd
        have hpos := lt_of_le_of_ne hge (Ne.symm (hnz _ _ _))
        have hinv' : (openFds (closeIfPos rdin ev ++ [Event.openFile f.text O_RDONLY
            (env.openFile (hist ++ closeIfPos rdin ev) f.text O_RDONLY)])).Perm
            (posList (env.openFile (hist ++ closeIfPos rdin ev) f.text O_RDONLY)
              ++ posList rdout) := by
          rw [openFds_open_ok _ _ _ _ hge, posList_pos hpos]
          exact List.Perm.cons _ hc
        have := ih _ rdout args _ hinv'
        simpa [failedOpens_append_one, Event.failedPath, failedOpens_closeIfPos, hfd,
          reports_append_one, Event.isReport, reports_closeIfPos] using this

/-- The calls of `readargs` are `open`, `close`, `syntax` and `errfile` only:
none of them starts a command. -/
theorem readargsLoop_no_launch (env : Env) (hist : List Event) (tokens : List Token) :
    ∀ (rdin rdout : Int) (args : List Token) (ev : List Event),
      (∀ e ∈ ev, e.isLaunch = false) →
      ∀ e ∈ (readargsLoop env hist tokens rdin rdout args ev).events, e.isLaunch = false := by
  have hclose : ∀ (a : Int) (ev : List Event), (∀ e ∈ ev, e.isLaunch = false) →
      ∀ e ∈ closeIfPos a ev, e.isLaunch = false := by
    intro a ev h e he
    unfold closeIfPos at he
    split at he
    · rcases List.mem_append.mp he with h1 | h1
      · exact h e h1
      · simp only [List.mem_singleton] at h1
        subst h1
        rfl
    · exact h e he
  have hsnoc : ∀ (ev : List Event) (x : Event), (∀ e ∈ ev, e.isLaunch = false) →
      x.isLaunch = false → ∀ e ∈ ev ++ [x], e.isLaunch = false := by
    intro ev x h hx e he
    rcases List.mem_append.mp he with h1 | h1
    · exact h e h1
    · simp only [List.mem_singleton] at h1
      subst h1
      exact hx
  induction tokens using tokens_induction with
  | hnil =>
    intro rdin rdout args ev h
    rw [readargsLoop_nil]
    split
    · exact hsnoc _ _ h rfl
    · exact h
  | hplain s rest hs ih =>
    intro rdin rdout args ev h
    rw [readargsLoop_plain _ _ _ _ _ _ _ _ hs]
    exact ih _ _ _ _ h
  | hdangling s hs =>
    intro rdin rdout args ev h
    rw [readargsLoop_dangling _ _ _ _ _ _ _ hs]
    exact hsnoc _ _ (hclose _ _ (hclose _ _ h)) rfl
  | hpair s f rest hs ih =>
    intro rdin rdout args ev h
    by_cases ho : s.isRedirOut = true
    · rw [readargsLoop_out _ _ _ _ _ _ _ _ _ hs ho]
      split
      · exact hsnoc _ _ (hclose _ _ (hsnoc _ _ (hclose _ _ h) rfl)) rfl
      · exact ih _ _ _ _ (hsnoc _ _ (hclose _ _ h) rfl)
    · have ho' : s.isRedirOut = false := by simpa using ho
      rw [readargsLoop_in _ _ _ _ _ _ _ _ _ hs ho']
      split
      · exact hsnoc _ _ (hclose _ _ (hsnoc _ _ (hclose _ _ h) rfl)) rfl
      · exact ih _ _ _ _ (hsnoc _ _ (hclose _ _ h) rfl)

/-- C8. File open failure: when some `open` made by `readargs` fails (`open`
never answering 0, so every earlier one gave a positive descriptor),
`readargs` returns -1, its only message is `errfile` for exactly that path,
no descriptor it opened is left open, and the body of the main loop ends
with the calls of `readargs` alone: no `vfork`, no builtin, no `runall`. -/
theorem readargs_open_failure (env : Env) (hist : List Event) (tokens : List Token)
    (background : Bool) (jobs : Jobs) (p : List Char) (fl : Nat) (fd : Int)
    (hnz : ∀ h q f, env.openFile h q f ≠ 0)
    (hmem : Event.openFile p fl fd ∈ (readargs env hist tokens).events) (hfd : fd < 0) :
    (readargs env hist tokens).ret = -1 ∧
    reports (readargs env hist tokens).events = [Event.errfile p] ∧
    openFds (readargs env hist tokens).events = [] ∧
    mainBody env hist tokens background jobs
      = some ⟨(readargs env hist tokens).events, jobs, background, false⟩ ∧
    ∀ e ∈ (readargs env hist tokens).events, e.isLaunch = false := by
  have hp : p ∈ failedOpens (readargs env hist tokens).events := by
    unfold failedOpens
    rw [List.mem_filterMap]
    exact ⟨_, hmem, by simp [Event.failedPath, hfd]⟩
  have hlaunch := readargsLoop_no_launch env hist tokens (-1) (-1) [] [] (by simp)
  rcases readargsLoop_failure env hist hnz tokens (-1) (-1) [] []
    (by simp [openFds, posList]) with h | ⟨q, h1, h2, h3, h4, _⟩
  · unfold readargs at hp
    rw [h] at hp
    simp [failedOpens] at hp
  · unfold readargs at hp
    rw [h1] at hp
    have hq : p = q := by simpa [failedOpens] using hp
    subst hq
    have hret : (readargs env hist tokens).ret = -1 := h2
    refine ⟨hret, ?_, h3, ?_, hlaunch⟩
    · have : reports (readargs env hist tokens).events = reports [] ++ [Event.errfile p] := h4
      simpa [reports] using this
    · unfold mainBody
      simp [hret]

/-- C8, witness: the tokens of `a < x > no b`, where `no` cannot be opened. -/
theorem readargs_open_failure_witness :
    (readargs envNoFile [] [Token.lit ['a'], Token.redin, Token.lit ['x'], Token.redout,
      Token.lit "no".toList, Token.lit ['b']]).ret = -1 ∧
    reports (readargs envNoFile [] [Token.lit ['a'], Token.redin, Token.lit ['x'],
      Token.redout, Token.lit "no".toList, Token.lit ['b']]).events
      = [Event.errfile "no".toList] ∧
    openFds (readargs envNoFile [] [Token.lit ['a'], Token.redin, Token.lit ['x'],
      Token.redout, Token.lit "no".toList, Token.lit ['b']]).events = [] ∧
    mainBody envNoFile [] [Token.lit ['a'], Token.redin, Token.lit ['x'], Token.redout,
      Token.lit "no".toList, Token.lit ['b']] false []
      = some ⟨(readargs envNoFile [] [Token.lit ['a'], Token.redin, Token.lit ['x'],
          Token.redout, Token.lit "no".toList, Token.lit ['b']]).events, [], false, false⟩ ∧
    ∀ e ∈ (readargs envNoFile [] [Token.lit ['a'], Token.redin, Token.lit ['x'],
      Token.redout, Token.lit "no".toList, Token.lit ['b']]).events, e.isLaunch = false :=
  readargs_open_failure envNoFile [] [Token.lit ['a'], Token.redin, Token.lit ['x'],
    Token.redout, Token.lit "no".toList, Token.lit ['b']] false [] "no".toList 577 (-1)
    (fun h q _ => by
      show (if q = "no".toList then (-1 : Int) else 3 + (h.length : Int)) ≠ 0
      split <;> omega)
    (by decide) (by decide)


/-! ## The last redirection wins -/

theorem lastOpen_append_one (b : Bool) (ev : List Event) (e : Event) :
    lastOpen b (ev ++ [e]) = lastOpenStep b (lastOpen b ev) e := by
  simp [lastOpen, List.foldl_append]

theorem lastOpen_closeIfPos (b : Bool) (a : Int) (ev : List Event) :
    lastOpen b (closeIfPos a ev) = lastOpen b ev := by
  unfold closeIfPos
  split
  · rw [lastOpen_append_one]
    rfl
  · rfl

theorem outFlags_ne (s : Token) : outFlags s ≠ O_RDONLY := by
  unfold outFlags
  split <;> decide

theorem lastOpen_out (b : Bool) (ev : List Event) (p : List Char) (s : Token) (fd : Int) :
    lastOpen b (ev ++ [Event.openFile p (outFlags s) fd])
      = if b = true then some fd else lastOpen b ev := by
  rw [lastOpen_append_one]
  cases b <;> simp [lastOpenStep, outFlags_ne]

theorem lastOpen_in (b : Bool) (ev : List Event) (p : List Char) (fd : Int) :
    lastOpen b (ev ++ [Event.openFile p O_RDONLY fd])
      = if b = false then some fd else lastOpen b ev := by
  rw [lastOpen_append_one]
  cases b <;> simp [lastOpenStep]

theorem posList_getD (o : Option Int) (h : ∀ x, o = some x → 0 < x) :
    posList (o.getD (-1)) = o.toList := by
  cases o with
  | none => simp [posList]
  | some x => simp [posList, h x rfl]

theorem Tracked.out {rdin rdout : Int} {ev : List Event} (h : Tracked rdin rdout ev)
    (p : List Char) (s : Token) (fd : Int) (hfd : 0 < fd) :
    Tracked rdin fd (closeIfPos rdout ev ++ [Event.openFile p (outFlags s) fd]) := by
  obtain ⟨h1, h2, h3, h4⟩ := h
  have hout : posList rdout = (lastOpen true ev).toList := by
    rw [h2]
    exact posList_getD _ (h3 true)
  refine ⟨?_, ?_, ?_, ?_⟩
  · rw [lastOpen_out, lastOpen_closeIfPos]
    simpa using h1
  · rw [lastOpen_out]
    simp
  · intro b x hx
    rw [lastOpen_out, lastOpen_closeIfPos] at hx
    cases b with
    | true =>
      simp only [if_true, Option.some.injEq] at hx
      exact hx ▸ hfd
    | false => exact h3 false x (by simpa using hx)
  · rw [openFds_open_ok _ _ _ _ (le_of_lt hfd)]
    simp only [lastOpen_out, lastOpen_closeIfPos]
    have hc := openFds_closeIfPos_right ev rdout ((lastOpen false ev).toList) (hout ▸ h4)
    simpa using (List.Perm.cons fd hc).trans (@List.perm_append_comm _ [fd] _)

theorem Tracked.inp {rdin rdout : Int} {ev : List Event} (h : Tracked rdin rdout ev)
    (p : List Char) (fd : Int) (hfd : 0 < fd) :
    Tracked fd rdout (closeIfPos rdin ev ++ [Event.openFile p O_RDONLY fd]) := by
  obtain ⟨h1, h2, h3, h4⟩ := h
  have hin : posList rdin = (lastOpen false ev).toList := by
    rw [h1]
    exact posList_getD _ (h3 false)
  refine ⟨?_, ?_, ?_, ?_⟩
  · rw [lastOpen_in]
    simp
  · rw [lastOpen_in, lastOpen_closeIfPos]
    simpa using h2
  · intro b x hx
    rw [lastOpen_in, lastOpen_closeIfPos] at hx
    cases b with
    | false =>
      simp only [if_true, Option.some.injEq] at hx
      exact hx ▸ hfd
    | true => exact h3 true x (by simpa using hx)
  · rw [openFds_open_ok _ _ _ _ (le_of_lt hfd)]
    simp only [lastOpen_in, lastOpen_closeIfPos]
    have hc := openFds_closeIfPos_left ev rdin ((lastOpen true ev).toList) (hin ▸ h4)
    simpa using List.Perm.cons fd hc

theorem readargsLoop_tracked (env : Env) (hist : List Event)
    (hpos : ∀ h p f, 0 < env.openFile h p f) (tokens : List Token) :
    ∀ (rdin rdout : Int) (args : List Token) (ev : List Event),
      Tracked rdin rdout ev →
      (readargsLoop env hist tokens rdin rdout args ev).ret = 0 →
      (readargsLoop env hist tokens rdin rdout args ev).rdin
        = (lastOpen false (readargsLoop env hist tokens rdin rdout args ev).events).getD 0 ∧
      (readargsLoop env hist tokens rdin rdout args ev).rdout
        = (lastOpen true (readargsLoop env hist tokens rdin rdout args ev).events).getD 1 ∧
      (openFds (readargsLoop env hist tokens rdin rdout args ev).events).Perm
        ((lastOpen false (readargsLoop env hist tokens rdin rdout args ev).events).toList
          ++ (lastOpen true (readargsLoop env hist tokens rdin rdout args ev).events).toList) ∧
      opens (readargsLoop env hist tokens rdin rdout args ev).events
        = opens ev ++ redirections tokens := by
  induction tokens using tokens_induction with
  | hnil =>
    intro rdin rdout args ev ht h0
    rw [readargsLoop_nil] at h0 ⊢
    obtain ⟨h1, h2, h3, h4⟩ := ht
    split at h0
    · simp at h0
    · rename_i hp
      rw [if_neg hp]
      refine ⟨?_, ?_, h4, by simp [redirections]⟩
      · show (if rdin < 0 then 0 else rdin) = _
        rw [h1]
        cases hl : lastOpen false ev with
        | none => simp
        | some x =>
          have := h3 false x hl
          simp [Int.not_lt.mpr (le_of_lt this)]
      · show (if rdout < 0 then 1 else rdout) = _
        rw [h2]
        cases hl : lastOpen true ev with
        | none => simp
        | some x =>
          have := h3 true x hl
          simp [Int.not_lt.mpr (le_of_lt this)]
  | hplain s rest hs ih =>
    intro rdin rdout args ev ht h0
    rw [readargsLoop_plain _ _ _ _ _ _ _ _ hs] at h0 ⊢
    rw [redirections_plain _ _ hs]
    exact ih _ _ _ _ ht h0
  | hdangling s hs =>
    intro rdin rdout args ev _ h0
    rw [readargsLoop_dangling _ _ _ _ _ _ _ hs] at h0
    simp at h0
  | hpair s f rest hs ih =>
    intro rdin rdout args ev ht h0
    rw [redirections_pair _ _ _ hs]
    by_cases ho : s.isRedirOut = true
    · have hfd := hpos (hist ++ closeIfPos rdout ev) f.text (outFlags s)
      rw [readargsLoop_out _ _ _ _ _ _ _ _ _ hs ho,
        if_neg (Int.not_lt.mpr (le_of_lt hfd))] at h0 ⊢
      have := ih _ _ _ _ (ht.out f.text s _ hfd) h0
      simpa [opens_open, opens_closeIfPos, ho] using this
    · have ho' : s.isRedirOut = false := by simpa using ho
      have hfd := hpos (hist ++ closeIfPos rdin ev) f.text O_RDONLY
      rw [readargsLoop_in _ _ _ _ _ _ _ _ _ hs ho',
        if_neg (Int.not_lt.mpr (le_of_lt hfd))] at h0 ⊢
      have := ih _ _ _ _ (ht.inp f.text _ hfd) h0
      simpa [opens_open, opens_closeIfPos, ho'] using this

/-- C7. Last redirection wins: when `readargs` returns 0 and every `open`
answers with a positive descriptor, the `open` calls made are the
redirections of the line in order, `rdin` is the result of the last `open`
for reading (0 if there is none), `rdout` the result of the last `open` for
writing or appending (1 if there is none), and the descriptors left open
are exactly these last results: every earlier one has been closed. -/
theorem readargs_last_wins (env : Env) (hist : List Event) (tokens : List Token)
    (hpos : ∀ h p f, 0 < env.openFile h p f)
    (h0 : (readargs env hist tokens).ret = 0) :
    opens (readargs env hist tokens).events = redirections tokens ∧
    (readargs env hist tokens).rdin
      = (lastOpen false (readargs env hist tokens).events).getD 0 ∧
    (readargs env hist tokens).rdout
      = (lastOpen true (readargs env hist tokens).events).getD 1 ∧
    (openFds (readargs env hist tokens).events).Perm
      ((lastOpen false (readargs env hist tokens).events).toList
        ++ (lastOpen true (readargs env hist tokens).events).toList) := by
  have ht : Tracked (-1) (-1) [] := by
    refine ⟨rfl, rfl, ?_, ?_⟩
    · intro b x hx
      simp [lastOpen] at hx
    · simp [openFds, lastOpen]
  obtain ⟨h1, h2, h3, h4⟩ := readargsLoop_tracked env hist hpos tokens (-1) (-1) [] [] ht h0
  exact ⟨by simpa [opens] using h4, h1, h2, h3⟩

/-- C7, witness: the tokens of `sort < in | uniq > tmp >> out`. -/
theorem readargs_last_wins_witness :
    opens (readargs envOk [] sampleTokens).events = redirections sampleTokens ∧
    (readargs envOk [] sampleTokens).rdin
      = (lastOpen false (readargs envOk [] sampleTokens).events).getD 0 ∧
    (readargs envOk [] sampleTokens).rdout
      = (lastOpen true (readargs envOk [] sampleTokens).events).getD 1 ∧
    (openFds (readargs envOk [] sampleTokens).events).Perm
      ((lastOpen false (readargs envOk [] sampleTokens).events).toList
        ++ (lastOpen true (readargs envOk [] sampleTokens).events).toList) :=
  readargs_last_wins envOk [] sampleTokens
    (fun h _ _ => by
      show (0 : Int) < 3 + (h.length : Int)
      omega)
    (by decide)


/-! ## Pipeline wiring -/

theorem forks_append (a b : List Event) : forks (a ++ b) = forks a ++ forks b := by
  simp [forks, List.filterMap_append]

theorem pipes_append (a b : List Event) : pipes (a ++ b) = pipes a ++ pipes b := by
  simp [pipes, List.filterMap_append]

theorem runcmd_forks (env : Env) (hist : List Event) (argv : List Token) (fdin fdout : Int)
    (background : Bool) (jobs : Jobs) :
    forks (runcmd env hist argv fdin fdout background jobs).1 = [(argv, fdin, fdout)] ∧
    pipes (runcmd env hist argv fdin fdout background jobs).1 = [] := by
  unfold runcmd
  by_cases hp : 0 < env.vfork hist
  · cases background <;> simp [hp, forks, pipes, jobadd, Event.forkArgs, Event.pipeEnds]
  · simp [hp, forks, pipes, Event.forkArgs, Event.pipeEnds]

theorem forks_close_if (c : Prop) [Decidable c] (x : List Event) (a : Int) :
    forks (if c then x ++ [Event.close a] else x) = forks x := by
  split <;> simp [forks, Event.forkArgs]

theorem pipes_close_if (c : Prop) [Decidable c] (x : List Event) (a : Int) :
    pipes (if c then x ++ [Event.close a] else x) = pipes x := by
  split <;> simp [pipes, Event.pipeEnds]

theorem runStage_forks (env : Env) (hist : List Event) (bg : Bool) (fd1 : Int)
    (stage : List Token) (last : Bool) (st : LoopState) :
    forks (runStage env hist bg fd1 stage last st).events
      = forks st.events
          ++ [(stage, st.fd0, if last then fd1 else (env.pipe (hist ++ st.events)).2.2)] := by
  simp only [runStage]
  rw [forks_close_if, forks_close_if, forks_append, forks_append,
    (runcmd_forks _ _ _ _ _ _ _).1]
  simp [forks, Event.forkArgs]

theorem runStage_pipes (env : Env) (hist : List Event) (bg : Bool) (fd1 : Int)
    (stage : List Token) (last : Bool) (st : LoopState) :
    pipes (runStage env hist bg fd1 stage last st).events
      = pipes st.events
          ++ [((env.pipe (hist ++ st.events)).2.1, (env.pipe (hist ++ st.events)).2.2)] := by
  simp only [runStage]
  rw [pipes_close_if, pipes_close_if, pipes_append, pipes_append,
    (runcmd_forks _ _ _ _ _ _ _).2]
  simp [pipes, Event.pipeEnds]

theorem runStage_fd0 (env : Env) (hist : List Event) (bg : Bool) (fd1 : Int)
    (stage : List Token) (last : Bool) (st : LoopState) :
    (runStage env hist bg fd1 stage last st).fd0 = (env.pipe (hist ++ st.events)).2.1 :=
  rfl

theorem takeWhile_stage (s more : List Token) (hs : ∀ t ∈ s, t.isLit = true) :
    (s ++ Token.pipe :: more).takeWhile (· ≠ Token.pipe) = s ∧
    (s ++ Token.pipe :: more).dropWhile (· ≠ Token.pipe) = Token.pipe :: more := by
  induction s with
  | nil => simp
  | cons t s ih =>
    have ht : t ≠ Token.pipe := by
      intro e
      have := hs t (List.mem_cons_self _ _)
      rw [e] at this
      exact absurd this (by decide)
    have hd : decide (t ≠ Token.pipe) = true := decide_eq_true ht
    have := ih (fun x hx => hs x (List.mem_cons_of_mem _ hx))
    simp only [List.cons_append, List.takeWhile_cons, List.dropWhile_cons, hd, if_true,
      this.1, this.2, and_self]

theorem takeWhile_last (s : List Token) (hs : ∀ t ∈ s, t.isLit = true) :
    s.takeWhile (· ≠ Token.pipe) = s ∧ s.dropWhile (· ≠ Token.pipe) = [] := by
  induction s with
  | nil => simp
  | cons t s ih =>
    have ht : t ≠ Token.pipe := by
      intro e
      have := hs t (List.mem_cons_self _ _)
      rw [e] at this
      exact absurd this (by decide)
    have hd : decide (t ≠ Token.pipe) = true := decide_eq_true ht
    have := ih (fun x hx => hs x (List.mem_cons_of_mem _ hx))
    simp only [List.cons_append, List.takeWhile_cons, List.dropWhile_cons, hd, if_true,
      this.1, this.2, and_self]

theorem joinStages_cons_cons (s s2 : List Token) (rest : List (List Token)) :
    joinStages (s :: s2 :: rest) = s ++ Token.pipe :: joinStages (s2 :: rest) := by
  simp [joinStages]

/-- The loop of `runall` on well-formed stages: it ends, creates one pipe per
stage, and calls `runcmd` once per stage, in order, with the stage as
argument vector, the read end of the previous pipe (or `fd[0]`) as input and
the write end of its own pipe (or `fd[1]` for the last stage) as output. -/
theorem runallLoop_wiring (env : Env) (hist : List Event) (bg : Bool) (fd1 : Int)
    (stages : List (List Token)) :
    stages ≠ [] → (∀ s ∈ stages, s ≠ [] ∧ ∀ t ∈ s, t.isLit = true) →
    ∀ (fuel : Nat) (st : LoopState), (joinStages stages).length ≤ fuel →
      ∃ r ps calls, runallLoop env hist bg fd1 fuel (joinStages stages) st = some r ∧
        pipes r.events = pipes st.events ++ ps ∧
        ps.length = stages.length ∧
        forks r.events = forks st.events ++ calls ∧
        calls.map (fun c => c.1) = stages ∧
        calls.map (fun c => c.2.1)
          = st.fd0 :: (ps.take (stages.length - 1)).map (fun p => p.1) ∧
        calls.map (fun c => c.2.2)
          = (ps.take (stages.length - 1)).map (fun p => p.2) ++ [fd1] := by
  induction stages with
  | nil => intro h; exact absurd rfl h
  | cons s rest ih =>
    intro _ hall fuel st hfuel
    obtain ⟨hsne, hslit⟩ := hall s (List.mem_cons_self _ _)
    obtain ⟨a, as, rfl⟩ := List.exists_cons_of_ne_nil hsne
    have haslit : ∀ t ∈ as, t.isLit = true := fun t ht => hslit t (List.mem_cons_of_mem _ ht)
    cases rest with
    | nil =>
      have hj : joinStages [a :: as] = a :: as := by simp [joinStages]
      rw [hj] at hfuel ⊢
      obtain ⟨f, rfl⟩ : ∃ f, fuel = f + 1 := by
        cases fuel with
        | zero => simp at hfuel
        | succ f => exact ⟨f, rfl⟩
      obtain ⟨htw, hdw⟩ := takeWhile_last as haslit
      refine ⟨⟨(runStage env hist bg fd1 (a :: as) true st).events,
          (runStage env hist bg fd1 (a :: as) true st).jobs,
          (runStage env hist bg fd1 (a :: as) true st).background⟩,
        [((env.pipe (hist ++ st.events)).2.1, (env.pipe (hist ++ st.events)).2.2)],
        [(a :: as, st.fd0, fd1)], ?_, ?_, rfl, ?_, rfl, ?_, ?_⟩
      · rw [runallLoop, htw, hdw]
        simp [runallLoop]
      · exact runStage_pipes _ _ _ _ _ _ _
      · have := runStage_forks env hist bg fd1 (a :: as) true st
        simpa using this
      · simp
      · simp
    | cons s2 rest' =>
      rw [joinStages_cons_cons] at hfuel ⊢
      obtain ⟨f, rfl⟩ : ∃ f, fuel = f + 1 := by
        cases fuel with
        | zero => simp at hfuel
        | succ f => exact ⟨f, rfl⟩
      obtain ⟨htw, hdw⟩ := takeWhile_stage as (joinStages (s2 :: rest')) haslit
      have hf : (joinStages (s2 :: rest')).length ≤ f := by
        simp only [List.length_append, List.length_cons] at hfuel
        omega
      obtain ⟨r, ps, calls, h1, h2, h3, h4, h5, h6, h7⟩ :=
        ih (by simp) (fun x hx => hall x (List.mem_cons_of_mem _ hx)) f
          (runStage env hist bg fd1 (a :: as) false st) hf
      refine ⟨r, ((env.pipe (hist ++ st.events)).2.1, (env.pipe (hist ++ st.events)).2.2) :: ps,
        (a :: as, st.fd0, (env.pipe (hist ++ st.events)).2.2) :: calls, ?_, ?_, ?_, ?_, ?_, ?_, ?_⟩
      · rw [List.cons_append, runallLoop, htw, hdw]
        simpa using h1
      · rw [h2, runStage_pipes]
        simp
      · simp [h3]
      · rw [h4, runStage_forks]
        simp
      · simp [h5]
      · rw [List.map_cons, h6, runStage_fd0]
        simp [List.take_succ_cons]
      · rw [List.map_cons, h7]
        simp [List.take_succ_cons]

/-- C10. Pipeline wiring: for a clean argument vector made of n >= 1 non-empty
stages of literal tokens separated by single Pipe markers, `runall` ends
and calls `runcmd` exactly n times, in order, the k-th call with the k-th
stage as argument vector; the first input descriptor is `rdin`, the last
output descriptor is `rdout`, and for every stage but the last the output
descriptor is the write end of the pipe created for it, whose read end is
the input descriptor of the next stage. -/
theorem runall_wiring (env : Env) (hist : List Event) (stages : List (List Token))
    (rdin rdout : Int) (background : Bool) (jobs : Jobs)
    (hne : stages ≠ []) (hall : ∀ s ∈ stages, s ≠ [] ∧ ∀ t ∈ s, t.isLit = true) :
    ∃ r, runall env hist (joinStages stages) rdin rdout background jobs = some r ∧
      (forks r.events).length = stages.length ∧
      (forks r.events).map (fun c => c.1) = stages ∧
      (forks r.events).map (fun c => c.2.1)
        = rdin :: ((pipes r.events).take (stages.length - 1)).map (fun p => p.1) ∧
      (forks r.events).map (fun c => c.2.2)
        = ((pipes r.events).take (stages.length - 1)).map (fun p => p.2) ++ [rdout] := by
  obtain ⟨r, ps, calls, h1, h2, _, h4, h5, h6, h7⟩ :=
    runallLoop_wiring env hist background rdout stages hne hall (joinStages stages).length
      ⟨rdin, false, jobs, []⟩ (Nat.le_refl _)
  have hp : pipes r.events = ps := by simpa [pipes] using h2
  have hf : forks r.events = calls := by simpa [forks] using h4
  refine ⟨r, h1, ?_, ?_, ?_, ?_⟩
  · rw [hf, ← h5]
    simp
  · rw [hf, h5]
  · rw [hf, hp, h6]
  · rw [hf, hp, h7]

/-- C10, witness: the three stages of `cat f | sort | uniq`. -/
theorem runall_wiring_witness :
    ∃ r, runall envOk [] (joinStages [[Token.lit "cat".toList, Token.lit ['f']],
        [Token.lit "sort".toList], [Token.lit "uniq".toList]]) 0 1 false [] = some r ∧
      (forks r.events).length = [[Token.lit "cat".toList, Token.lit ['f']],
        [Token.lit "sort".toList], [Token.lit "uniq".toList]].length ∧
      (forks r.events).map (fun c => c.1) = [[Token.lit "cat".toList, Token.lit ['f']],
        [Token.lit "sort".toList], [Token.lit "uniq".toList]] ∧
      (forks r.events).map (fun c => c.2.1)
        = 0 :: ((pipes r.events).take ([[Token.lit "cat".toList, Token.lit ['f']],
            [Token.lit "sort".toList], [Token.lit "uniq".toList]].length - 1)).map
              (fun p => p.1) ∧
      (forks r.events).map (fun c => c.2.2)
        = ((pipes r.events).take ([[Token.lit "cat".toList, Token.lit ['f']],
            [Token.lit "sort".toList], [Token.lit "uniq".toList]].length - 1)).map
              (fun p => p.2) ++ [1] :=
  runall_wiring envOk [] [[Token.lit "cat".toList, Token.lit ['f']],
    [Token.lit "sort".toList], [Token.lit "uniq".toList]] 0 1 false [] (by decide) (by decide)

/-! ## Pipes and descriptors of `runall` -/

/-- C11. Number of pipes, as the code has it: for n >= 1 well-formed stages
`runall` ends and has called `pipe` once in every round, n times and not
n - 1 times; the pipe of the last round is created as well. -/
theorem runall_pipe_count (env : Env) (hist : List Event) (stages : List (List Token))
    (rdin rdout : Int) (background : Bool) (jobs : Jobs)
    (hne : stages ≠ []) (hall : ∀ s ∈ stages, s ≠ [] ∧ ∀ t ∈ s, t.isLit = true) :
    ∃ r, runall env hist (joinStages stages) rdin rdout background jobs = some r ∧
      (pipes r.events).length = stages.length := by
  obtain ⟨r, ps, _, h1, h2, h3, _⟩ :=
    runallLoop_wiring env hist background rdout stages hne hall (joinStages stages).length
      ⟨rdin, false, jobs, []⟩ (Nat.le_refl _)
  refine ⟨r, h1, ?_⟩
  rw [h2, ← h3]
  simp [pipes]

/-- C11, the failing input: the single command `ls` makes `runall` create one
pipe where the claim says none. -/
theorem runall_pipe_count_witness :
    ∃ r, runall envOk [] (joinStages [[Token.lit "ls".toList]]) 0 1 false [] = some r ∧
      (pipes r.events).length = [[Token.lit "ls".toList]].length :=
  runall_pipe_count envOk [] [[Token.lit "ls".toList]] 0 1 false [] (by decide) (by decide)

/-- C16, the failing input: after `runall` has run the single command `ls`
(no redirection, `rdin` = 0, `rdout` = 1) both ends of the pipe created in
its only round, 3 and 4, are still open in the shell; for the three stages of
`a | b | c` the ends of the pipes of the first two rounds are closed and the
ends of the last pipe, 12 and 13, stay open. -/
theorem runall_leaves_last_pipe_open :
    (runall envOk [] [Token.lit "ls".toList] 0 1 false []).map (fun r => r.events)
      = some [Event.pipe 0 3 4, Event.vfork [Token.lit "ls".toList] 0 1 101,
          Event.waitpid 101] ∧
    (runall envOk [] [Token.lit "ls".toList] 0 1 false []).map (fun r => openFds r.events)
      = some [4, 3] ∧
    (runall envOk [] (joinStages [[Token.lit ['a']], [Token.lit ['b']], [Token.lit ['c']]])
        0 1 false []).map (fun r => (pipes r.events, openFds r.events))
      = some ([(3, 4), (7, 8), (12, 13)], [13, 12]) := by
  decide

/-! ## Aborts of `readargs` -/

/-- C15, the failing input: on the tokens of `a > | b` `readargs` takes the
Pipe marker after `>` for the file name: whatever the environment, it calls
`open` once, with the empty path the marker points to, and prints no syntax
error. -/
theorem readargs_operator_as_filename (env : Env) (hist : List Event) :
    opens (readargs env hist redirPipeTokens).events = [([], outFlags Token.redout)] ∧
    ∀ tok, Event.syntaxError tok ∉ (readargs env hist redirPipeTokens).events := by
  have hs : Token.redout.isRedir = true := rfl
  have ho : Token.redout.isRedirOut = true := rfl
  have hl : ∀ c, (Token.lit c).isRedir = false := fun _ => rfl
  unfold readargs redirPipeTokens
  rw [readargsLoop_plain _ _ _ _ _ _ _ _ (hl _), readargsLoop_out _ _ _ _ _ _ _ _ _ hs ho]
  split
  · simp [opens, closeIfPos, Event.openArgs, Token.text]
  · rw [readargsLoop_plain _ _ _ _ _ _ _ _ (hl _), readargsLoop_nil]
    simp [opens, closeIfPos, Event.openArgs, Token.text]

/-- C17, the failing inputs: on the tokens of `> out` (empty clean vector) and
of `a > out |` (trailing Pipe marker) `readargs` returns -1 and the
descriptor 3 it opened for `out` is still open. -/
theorem readargs_abort_leaves_open :
    (readargs envOk [] [Token.redout, Token.lit "out".toList]).ret = -1 ∧
    (readargs envOk [] [Token.redout, Token.lit "out".toList]).events
      = [Event.openFile "out".toList 577 3] ∧
    openFds (readargs envOk [] [Token.redout, Token.lit "out".toList]).events = [3] ∧
    (readargs envOk [] [Token.lit ['a'], Token.redout, Token.lit "out".toList,
      Token.pipe]).ret = -1 ∧
    (readargs envOk [] [Token.lit ['a'], Token.redout, Token.lit "out".toList,
      Token.pipe]).events
      = [Event.openFile "out".toList 577 3, Event.syntaxError "|".toList] ∧
    openFds (readargs envOk [] [Token.lit ['a'], Token.redout, Token.lit "out".toList,
      Token.pipe]).events = [3] := by
  decide

/-! ## Adjacent Pipe markers and skipped reconciliation -/

/-- C18, the failing input: the line `a | | b` is read as the tokens
`a`, Pipe, Pipe, `b`; `readargs` returns 0 on them with the same clean vector,
whose first token is a literal; `runall` then hands the second process the
argument vector made of a Pipe marker and `b`. -/
theorem runall_stage_with_marker :
    (readline globNoMatch "a | | b\n".toList).tokens = some doublePipeTokens ∧
    (readargs envOk [] doublePipeTokens).ret = 0 ∧
    (readargs envOk [] doublePipeTokens).args = doublePipeTokens ∧
    (runall envOk [] doublePipeTokens 0 1 false []).map
        (fun r => (forks r.events).map (fun c => c.1))
      = some [[Token.lit ['a']], [Token.pipe, Token.lit ['b']]] := by
  decide

/-- C19, the failing inputs: with a finished job 7 in the list, the round of
the main loop for a blank line, and the round for the line `>` that
`readargs` rejects, both read their line successfully and end without
calling `jobupdate`: the job stays in the list unreported. The round for
the line `ls` calls it and reports the job. -/
theorem mainStep_skips_jobupdate :
    readline globNoMatch [NEWLINE] = ReadResult.ok ⟨[], false, false, []⟩ ∧
    mainStep globNoMatch envOk [] [NEWLINE] [⟨7, true⟩] false
      = some (⟨[], [⟨7, true⟩], false, false⟩, []) ∧
    mainStep globNoMatch envOk [] ['>', NEWLINE] [⟨7, true⟩] false
      = some (⟨[Event.syntaxError "newline".toList], [⟨7, true⟩], false, false⟩, []) ∧
    mainStep globNoMatch envOk [] "ls\n".toList [⟨7, true⟩] false
      = some (⟨[Event.callRunall, Event.pipe 0 4 5,
          Event.vfork [Token.lit "ls".toList] 0 1 102, Event.waitpid 102,
          Event.callJobupdate, Event.completed 7], [], false, false⟩, []) := by
  decide


/-! ## The capacity of `argsbuf` -/

theorem pipeLine_length (k : Nat) : (pipeLine k).length = 2 * k := by
  induction k with
  | zero => rfl
  | succ k ih =>
    simp only [pipeLine, List.length_cons, ih]
    omega

theorem pipeLine_chars (k : Nat) :
    ∀ c ∈ pipeLine k, isOrdinary c = true ∨ isDelim c = true := by
  induction k with
  | zero => simp [pipeLine]
  | succ k ih =>
    intro c hc
    simp only [pipeLine, List.mem_cons] at hc
    rcases hc with h | h | h
    · subst h
      exact Or.inl (by decide)
    · subst h
      exact Or.inr (by decide)
    · exact ih c h

theorem refLex_pipeLine_length (k : Nat) : (refLexFrom [] (pipeLine k)).length = 2 * k := by
  induction k with
  | zero => rfl
  | succ k ih =>
    have h1 : refLexFrom [] (pipeLine (k + 1))
        = Token.lit ['a'] :: Token.pipe :: refLexFrom [] (pipeLine k) := by
      have ho : isOrdinary 'a' = true := by decide
      have hd : isDelim '|' = true := by decide
      rw [pipeLine, refLexFrom_ordinary _ _ _ ho, refLexFrom_delim _ _ _ hd, refLexFrom_pipe]
      rfl
    rw [h1, List.length_cons, List.length_cons, ih]
    omega

theorem readline_pipeLine (k : Nat) :
    (readRaw false (pipeLine k ++ [NEWLINE]) []).linebuf.length = 2 * k ∧
    (readline globNoMatch (pipeLine k ++ [NEWLINE])).tokens
      = some (refLexFrom [] (pipeLine k)) := by
  have hraw := readRaw_plain (pipeLine k) [] [] (pipeLine_chars k)
  have htok := tokLoop_refLex globNoMatch (fun _ _ => rfl) (pipeLine k).length
    (pipeLine k) (Nat.le_refl _) (pipeLine_chars k)
  refine ⟨?_, ?_⟩
  · rw [hraw]
    simp [pipeLine_length]
  · unfold readline
    simp only [hraw, List.nil_append]
    rw [htok]
    split
    · rename_i hc
      exact absurd hc.2 (by simp)
    · rfl

/-- C20, the failing input: the line `a|a|...a|` with 256 commands is stored by
the first pass in 512 characters, fewer than `LINE_SIZE`; every expansion
gives one token; the second pass stores 512 tokens, so with the sentinel 513
entries of `argsbuf`, more than `ARGS_SIZE` = 512. -/
theorem readline_exceeds_args_size :
    (readRaw false (pipeLine 256 ++ [NEWLINE]) []).linebuf.length = 512 ∧
    512 < LINE_SIZE ∧
    ∃ toks, (readline globNoMatch (pipeLine 256 ++ [NEWLINE])).tokens = some toks ∧
      toks.length + 1 = 513 ∧ ARGS_SIZE < toks.length + 1 := by
  have h := readline_pipeLine 256
  have hlen := refLex_pipeLine_length 256
  refine ⟨h.1, by decide, refLexFrom [] (pipeLine 256), h.2, ?_, ?_⟩
  · rw [hlen]
  · rw [hlen]
    decide


/-! ## Waiting and job registration in `runall` -/

theorem steps_append (a b : List Event) : steps (a ++ b) = steps a ++ steps b := by
  simp [steps, List.filterMap_append]

theorem forkPids_append (a b : List Event) : forkPids (a ++ b) = forkPids a ++ forkPids b := by
  simp [forkPids, List.filterMap_append]

theorem steps_close_if (c : Prop) [Decidable c] (x : List Event) (a : Int) :
    steps (if c then x ++ [Event.close a] else x) = steps x := by
  split <;> simp [steps, Event.procStep]

theorem forkPids_close_if (c : Prop) [Decidable c] (x : List Event) (a : Int) :
    forkPids (if c then x ++ [Event.close a] else x) = forkPids x := by
  split <;> simp [forkPids, Event.forkPid]

theorem waited_append (a b : List Int) : waited (a ++ b) = waited a ++ waited b := by
  induction a with
  | nil => rfl
  | cons p ps ih => simp [waited, ih]

theorem runcmd_spawned (env : Env) (hist : List Event) (argv : List Token) (fdin fdout : Int)
    (background : Bool) (jobs : Jobs) (hv : 0 < env.vfork hist) :
    steps (runcmd env hist argv fdin fdout background jobs).1
      = [ProcStep.spawn (env.vfork hist),
          if background then ProcStep.register (env.vfork hist)
          else ProcStep.wait (env.vfork hist)] ∧
    forkPids (runcmd env hist argv fdin fdout background jobs).1 = [env.vfork hist] ∧
    (runcmd env hist argv fdin fdout background jobs).2
      = (if background then ⟨env.vfork hist, false⟩ :: jobs else jobs) := by
  unfold runcmd
  cases background <;>
    simp [hv, steps, forkPids, jobadd, Event.procStep, Event.forkPid]

/-- One round of the loop of `runall` when `vfork` succeeds: the process is
spawned; it is registered as a job when this is the last round of a
background line, and waited for otherwise. -/
theorem runStage_spawned (env : Env) (hist : List Event) (bg : Bool) (fd1 : Int)
    (stage : List Token) (last : Bool) (st : LoopState) (hv : ∀ h, 0 < env.vfork h)
    (hb : st.background = false) :
    ∃ pid,
      steps (runStage env hist bg fd1 stage last st).events
        = steps st.events
            ++ [ProcStep.spawn pid,
                if (last && bg) = true then ProcStep.register pid else ProcStep.wait pid] ∧
      forkPids (runStage env hist bg fd1 stage last st).events = forkPids st.events ++ [pid] ∧
      (runStage env hist bg fd1 stage last st).jobs
        = (if (last && bg) = true then ⟨pid, false⟩ :: st.jobs else st.jobs) ∧
      (runStage env hist bg fd1 stage last st).background = (last && bg) := by
  refine ⟨env.vfork (hist ++ (st.events ++ [Event.pipe (env.pipe (hist ++ st.events)).1
    (env.pipe (hist ++ st.events)).2.1 (env.pipe (hist ++ st.events)).2.2])), ?_, ?_, ?_, ?_⟩
  · simp only [runStage]
    rw [steps_close_if, steps_close_if, steps_append, steps_append,
      (runcmd_spawned _ _ _ _ _ _ _ (hv _)).1]
    cases hl : (last && bg) <;> simp [steps, Event.procStep, hb, hl]
  · simp only [runStage]
    rw [forkPids_close_if, forkPids_close_if, forkPids_append, forkPids_append,
      (runcmd_spawned _ _ _ _ _ _ _ (hv _)).2.1]
    simp [forkPids, Event.forkPid]
  · simp only [runStage]
    rw [(runcmd_spawned _ _ _ _ _ _ _ (hv _)).2.2]
    cases hl : (last && bg) <;> simp [hb, hl]
  · simp only [runStage]
    cases hl : (last && bg) <;> simp [hb, hl]

/-- The loop of `runall` on well-formed stages when every `vfork` succeeds:
every stage but the last is spawned and then waited for before the next one
is spawned; the last one is spawned and then registered as a job on a
background line, waited for otherwise. -/
theorem runallLoop_steps (env : Env) (hist : List Event) (bg : Bool) (fd1 : Int)
    (hv : ∀ h, 0 < env.vfork h) (stages : List (List Token)) :
    stages ≠ [] → (∀ s ∈ stages, s ≠ [] ∧ ∀ t ∈ s, t.isLit = true) →
    ∀ (fuel : Nat) (st : LoopState), st.background = false →
      (joinStages stages).length ≤ fuel →
      ∃ r pids pid, runallLoop env hist bg fd1 fuel (joinStages stages) st = some r ∧
        forkPids r.events = forkPids st.events ++ (pids ++ [pid]) ∧
        pids.length + 1 = stages.length ∧
        steps r.events
          = steps st.events
              ++ (waited pids
                ++ [ProcStep.spawn pid,
                    if bg = true then ProcStep.register pid else ProcStep.wait pid]) ∧
        r.jobs = (if bg = true then ⟨pid, false⟩ :: st.jobs else st.jobs) := by
  induction stages with
  | nil => intro h; exact absurd rfl h
  | cons s rest ih =>
    intro _ hall fuel st hb hfuel
    obtain ⟨hsne, hslit⟩ := hall s (List.mem_cons_self _ _)
    obtain ⟨a, as, rfl⟩ := List.exists_cons_of_ne_nil hsne
    have haslit : ∀ t ∈ as, t.isLit = true := fun t ht => hslit t (List.mem_cons_of_mem _ ht)
    cases rest with
    | nil =>
      have hj : joinStages [a :: as] = a :: as := by simp [joinStages]
      rw [hj] at hfuel ⊢
      obtain ⟨f, rfl⟩ : ∃ f, fuel = f + 1 := by
        cases fuel with
        | zero => simp at hfuel
        | succ f => exact ⟨f, rfl⟩
      obtain ⟨htw, hdw⟩ := takeWhile_last as haslit
      obtain ⟨pid, h1, h2, h3, _⟩ :=
        runStage_spawned env hist bg fd1 (a :: as) true st hv hb
      refine ⟨⟨(runStage env hist bg fd1 (a :: as) true st).events,
          (runStage env hist bg fd1 (a :: as) true st).jobs,
          (runStage env hist bg fd1 (a :: as) true st).background⟩, [], pid, ?_, ?_, rfl, ?_, ?_⟩
      · rw [runallLoop, htw, hdw]
        simp [runallLoop]
      · simpa using h2
      · simpa [waited] using h1
      · simpa using h3
    | cons s2 rest' =>
      rw [joinStages_cons_cons] at hfuel ⊢
      obtain ⟨f, rfl⟩ : ∃ f, fuel = f + 1 := by
        cases fuel with
        | zero => simp at hfuel
        | succ f => exact ⟨f, rfl⟩
      obtain ⟨htw, hdw⟩ := takeWhile_stage as (joinStages (s2 :: rest')) haslit
      have hf : (joinStages (s2 :: rest')).length ≤ f := by
        simp only [List.length_append, List.length_cons] at hfuel
        omega
      obtain ⟨p1, h1, h2, h3, h4⟩ :=
        runStage_spawned env hist bg fd1 (a :: as) false st hv hb
      obtain ⟨r, pids, pid, g1, g2, g3, g4, g5⟩ :=
        ih (by simp) (fun x hx => hall x (List.mem_cons_of_mem _ hx)) f
          (runStage env hist bg fd1 (a :: as) false st) (by simpa using h4) hf
      refine ⟨r, p1 :: pids, pid, ?_, ?_, ?_, ?_, ?_⟩
      · rw [List.cons_append, runallLoop, htw, hdw]
        simpa using g1
      · rw [g2, h2]
        simp
      · simp only [List.length_cons] at g3 ⊢
        omega
      · rw [g4, h1]
        simp [waited]
      · rw [g5, h3]
        simp

/-- C12 (as amended). Foreground waiting, as the code has it: for a foreground
line of n >= 1 well-formed stages with every `vfork` succeeding, `runall`
ends, spawns n processes, and issues a blocking `waitpid` for every one of
them, each right after its `vfork` and before the next stage is spawned; the
job list is left as it was. -/
theorem runall_foreground_waits (env : Env) (hist : List Event) (stages : List (List Token))
    (rdin rdout : Int) (jobs : Jobs) (hv : ∀ h, 0 < env.vfork h)
    (hne : stages ≠ []) (hall : ∀ s ∈ stages, s ≠ [] ∧ ∀ t ∈ s, t.isLit = true) :
    ∃ r, runall env hist (joinStages stages) rdin rdout false jobs = some r ∧
      (forkPids r.events).length = stages.length ∧
      steps r.events = waited (forkPids r.events) ∧
      r.jobs = jobs := by
  obtain ⟨r, pids, pid, h1, h2, h3, h4, h5⟩ :=
    runallLoop_steps env hist false rdout hv stages hne hall (joinStages stages).length
      ⟨rdin, false, jobs, []⟩ rfl (Nat.le_refl _)
  have hp : forkPids r.events = pids ++ [pid] := by simpa [forkPids] using h2
  refine ⟨r, h1, ?_, ?_, ?_⟩
  · rw [hp, ← h3]
    simp
  · rw [hp, waited_append]
    simpa [steps, waited] using h4
  · simpa using h5

/-- C12, witness: the two stages of `a | b` in the foreground. -/
theorem runall_foreground_waits_witness :
    ∃ r, runall envOk [] (joinStages [[Token.lit ['a']], [Token.lit ['b']]]) 0 1 false []
        = some r ∧
      (forkPids r.events).length = [[Token.lit ['a']], [Token.lit ['b']]].length ∧
      steps r.events = waited (forkPids r.events) ∧
      r.jobs = [] :=
  runall_foreground_waits envOk [] [[Token.lit ['a']], [Token.lit ['b']]] 0 1 [] 
    (fun h => by
      show (0 : Int) < 100 + (h.length : Int)
      omega)
    (by decide) (by decide)

/-- C12, counterexample: for the foreground line `a | b` the shell spawns the
first process (pid 101), waits for it with a blocking `waitpid`, and only
then spawns the second (pid 105): a blocking wait is issued for a stage
that is not the last. -/
theorem runall_waits_for_first_stage :
    (runall envOk [] (joinStages [[Token.lit ['a']], [Token.lit ['b']]]) 0 1 false []).map
        (fun r => steps r.events)
      = some [ProcStep.spawn 101, ProcStep.wait 101, ProcStep.spawn 105, ProcStep.wait 105] ∧
    (runall envOk [] (joinStages [[Token.lit ['a']], [Token.lit ['b']]]) 0 1 false []).map
        (fun r => steps r.events)
      ≠ some [ProcStep.spawn 101, ProcStep.spawn 105, ProcStep.wait 105] := by
  decide

/-- C13. Background registration: for a background line of n >= 1 well-formed
stages with every `vfork` succeeding, `runall` ends and adds exactly one
record to the job list, at its head, with the pid of the last process and
the completion flag clear, the records already there unchanged; the last
process is spawned and registered, and no `waitpid` follows its spawn (the
earlier stages are each spawned and waited for). -/
theorem runall_background_registers (env : Env) (hist : List Event)
    (stages : List (List Token)) (rdin rdout : Int) (jobs : Jobs)
    (hv : ∀ h, 0 < env.vfork h)
    (hne : stages ≠ []) (hall : ∀ s ∈ stages, s ≠ [] ∧ ∀ t ∈ s, t.isLit = true) :
    ∃ r pid, runall env hist (joinStages stages) rdin rdout true jobs = some r ∧
      (forkPids r.events).length = stages.length ∧
      (forkPids r.events).getLast? = some pid ∧
      r.jobs = ⟨pid, false⟩ :: jobs ∧
      steps r.events
        = waited (forkPids r.events).dropLast
            ++ [ProcStep.spawn pid, ProcStep.register pid] := by
  obtain ⟨r, pids, pid, h1, h2, h3, h4, h5⟩ :=
    runallLoop_steps env hist true rdout hv stages hne hall (joinStages stages).length
      ⟨rdin, false, jobs, []⟩ rfl (Nat.le_refl _)
  have hp : forkPids r.events = pids ++ [pid] := by simpa [forkPids] using h2
  refine ⟨r, pid, h1, ?_, ?_, ?_, ?_⟩
  · rw [hp, ← h3]
    simp
  · rw [hp]
    simp
  · simpa using h5
  · rw [hp, List.dropLast_concat]
    simpa [steps] using h4

/-- C13, witness: the two stages of `a | b &` with the job 7 already listed. -/
theorem runall_background_registers_witness :
    ∃ r pid, runall envOk [] (joinStages [[Token.lit ['a']], [Token.lit ['b']]]) 0 1 true
        [⟨7, false⟩] = some r ∧
      (forkPids r.events).length = [[Token.lit ['a']], [Token.lit ['b']]].length ∧
      (forkPids r.events).getLast? = some pid ∧
      r.jobs = ⟨pid, false⟩ :: [⟨7, false⟩] ∧
      steps r.events
        = waited (forkPids r.events).dropLast
            ++ [ProcStep.spawn pid, ProcStep.register pid] :=
  runall_background_registers envOk [] [[Token.lit ['a']], [Token.lit ['b']]] 0 1 [⟨7, false⟩]
    (fun h => by
      show (0 : Int) < 100 + (h.length : Int)
      omega)
    (by decide) (by decide)


/-! ## The job list -/

theorem IsSeg_nil (heap : JobHeap) (head tail : Option Nat) :
    IsSeg heap head [] tail ↔ head = tail := by
  simp [IsSeg]

theorem IsSeg_cons (heap : JobHeap) (head tail : Option Nat) (a : Nat) (j : Job)
    (rest : List (Nat × Job)) :
    IsSeg heap head ((a, j) :: rest) tail
      ↔ head = some a ∧ ∃ next, heap a = some ⟨j, next⟩ ∧ IsSeg heap next rest tail := by
  simp [IsSeg]

theorem IsSeg_append (heap : JobHeap) (l₁ l₂ : List (Nat × Job)) :
    ∀ (head tail : Option Nat),
      IsSeg heap head (l₁ ++ l₂) tail ↔ ∃ m, IsSeg heap head l₁ m ∧ IsSeg heap m l₂ tail := by
  induction l₁ with
  | nil =>
    intro head tail
    simp [IsSeg_nil]
  | cons x l ih =>
    intro head tail
    obtain ⟨a, j⟩ := x
    simp only [List.cons_append, IsSeg_cons, ih]
    constructor
    · rintro ⟨h1, next, h2, m, h3, h4⟩
      exact ⟨m, ⟨h1, next, h2, h3⟩, h4⟩
    · rintro ⟨m, ⟨h1, next, h2, h3⟩, h4⟩
      exact ⟨h1, next, h2, m, h3, h4⟩

theorem IsSeg_frame (heap heap' : JobHeap) (l : List (Nat × Job)) :
    ∀ (head tail : Option Nat), (∀ n ∈ l, heap' n.1 = heap n.1) →
      IsSeg heap head l tail → IsSeg heap' head l tail := by
  induction l with
  | nil =>
    intro head tail _ h
    simpa [IsSeg_nil] using h
  | cons x l ih =>
    intro head tail hf h
    obtain ⟨a, j⟩ := x
    rw [IsSeg_cons] at h ⊢
    obtain ⟨h1, next, h2, h3⟩ := h
    refine ⟨h1, next, ?_, ih _ _ (fun n hn => hf n (List.mem_cons_of_mem _ hn)) h3⟩
    rw [hf (a, j) (List.mem_cons_self _ _)]
    exact h2

theorem IsSeg_unique (heap : JobHeap) (l₁ : List (Nat × Job)) :
    ∀ (l₂ : List (Nat × Job)) (head : Option Nat),
      IsSeg heap head l₁ none → IsSeg heap head l₂ none → l₁ = l₂ := by
  induction l₁ with
  | nil =>
    intro l₂ head h1 h2
    rw [IsSeg_nil] at h1
    cases l₂ with
    | nil => rfl
    | cons y l =>
      obtain ⟨b, k⟩ := y
      rw [IsSeg_cons] at h2
      rw [h1] at h2
      exact absurd h2.1 (by simp)
  | cons x l ih =>
    intro l₂ head h1 h2
    obtain ⟨a, j⟩ := x
    rw [IsSeg_cons] at h1
    obtain ⟨e1, n1, g1, s1⟩ := h1
    cases l₂ with
    | nil =>
      rw [IsSeg_nil] at h2
      rw [h2] at e1
      exact absurd e1 (by simp)
    | cons y l' =>
      obtain ⟨b, k⟩ := y
      rw [IsSeg_cons] at h2
      obtain ⟨e2, n2, g2, s2⟩ := h2
      have hab : a = b := by
        rw [e1] at e2
        exact Option.some.inj e2
      subst hab
      rw [g1] at g2
      have hn := Option.some.inj g2
      have hj : j = k := congrArg JobNode.job hn
      have hnn : n1 = n2 := congrArg JobNode.next hn
      subst hj
      subst hnn
      rw [ih l' n1 s1 s2]

/-- A list that ends with `NULL` visits no address twice. -/
theorem IsSeg_nodup (heap : JobHeap) (l : List (Nat × Job)) :
    ∀ (head : Option Nat), IsSeg heap head l none → (l.map Prod.fst).Nodup := by
  induction l with
  | nil =>
    intro _ _
    simp
  | cons x l ih =>
    intro head h
    obtain ⟨a, j⟩ := x
    rw [IsSeg_cons] at h
    obtain ⟨_, next, g, s⟩ := h
    rw [List.map_cons, List.nodup_cons]
    refine ⟨?_, ih next s⟩
    intro hmem
    obtain ⟨y, hy, hya⟩ := List.mem_map.mp hmem
    obtain ⟨pre, post, hsplit⟩ := List.append_of_mem hy
    obtain ⟨b, k⟩ := y
    simp only at hya
    subst hya
    rw [hsplit, IsSeg_append] at s
    obtain ⟨m, _, s2⟩ := s
    rw [IsSeg_cons] at s2
    obtain ⟨_, n2, g2, s3⟩ := s2
    rw [g] at g2
    have hnn : next = n2 := congrArg JobNode.next (Option.some.inj g2)
    subst hnn
    have hs : IsSeg heap next l none := by
      rw [hsplit, IsSeg_append]
      rename_i s1 _
      exact ⟨m, s1, by
        rw [IsSeg_cons]
        exact ⟨by assumption, next, g2 ▸ g, s3⟩⟩
    have := IsSeg_unique heap post l next s3 hs
    have hlen := congrArg List.length this
    rw [hsplit] at hlen
    simp at hlen
    omega


theorem notices_cons_done (a : Nat) (j : Job) (rest : List (Nat × Job)) (h : j.done = true) :
    notices ((a, j) :: rest) = Event.completed j.pid :: notices rest ∧
    running ((a, j) :: rest) = running rest := by
  simp [notices, running, h]

theorem notices_cons_running (a : Nat) (j : Job) (rest : List (Nat × Job))
    (h : j.done = false) :
    notices ((a, j) :: rest) = notices rest ∧
    running ((a, j) :: rest) = (a, j) :: running rest := by
  simp [notices, running, h]

theorem nodup_middle_facts (kept rest : List (Nat × Job)) (c : Nat) (j : Job)
    (h : ((kept ++ (c, j) :: rest).map Prod.fst).Nodup) :
    (∀ n ∈ kept, n.1 ≠ c) ∧ (∀ n ∈ rest, n.1 ≠ c) ∧
    (∀ n ∈ kept, ∀ m ∈ rest, n.1 ≠ m.1) ∧
    ((kept ++ rest).map Prod.fst).Nodup ∧
    (((kept ++ [(c, j)]) ++ rest).map Prod.fst).Nodup := by
  have h5 : (((kept ++ [(c, j)]) ++ rest).map Prod.fst).Nodup := by
    simpa using h
  rw [List.map_append, List.map_cons, List.nodup_middle, List.nodup_cons] at h
  obtain ⟨hc, hnd⟩ := h
  have hnd2 := hnd
  rw [List.nodup_append] at hnd2
  refine ⟨?_, ?_, ?_, ?_, h5⟩
  · intro n hn e
    apply hc
    have hm : n.1 ∈ kept.map Prod.fst := List.mem_map_of_mem Prod.fst hn
    rw [e] at hm
    exact List.mem_append_left _ hm
  · intro n hn e
    apply hc
    have hm : n.1 ∈ rest.map Prod.fst := List.mem_map_of_mem Prod.fst hn
    rw [e] at hm
    exact List.mem_append_right _ hm
  · intro n hn m hm e
    have h1 : n.1 ∈ kept.map Prod.fst := List.mem_map_of_mem Prod.fst hn
    have h2 : m.1 ∈ rest.map Prod.fst := List.mem_map_of_mem Prod.fst hm
    rw [← e] at h2
    exact hnd2.2.2 h1 h2
  · rw [List.map_append]
    exact hnd

theorem nodup_snoc_facts (K rest : List (Nat × Job)) (b : Nat × Job)
    (h : (((K ++ [b]) ++ rest).map Prod.fst).Nodup) : ∀ n ∈ K, n.1 ≠ b.1 := by
  have h2 : ((K ++ b :: rest).map Prod.fst).Nodup := by simpa using h
  exact (nodup_middle_facts K rest b.1 b.2 h2).1

theorem jobupdateMemLoop_step (fuel : Nat) (heap : JobHeap) (jobs : Option Nat)
    (ev : List Event) (prev : Option Nat) (c : Nat) (node : JobNode)
    (hc : heap c = some node) :
    jobupdateMemLoop (fuel + 1) heap jobs ev prev (some c)
      = if node.job.done then
          if some c = jobs then
            jobupdateMemLoop fuel (heap.free c) node.next
              (ev ++ [Event.completed node.job.pid]) prev node.next
          else
            match prev with
            | none => none
            | some p =>
              match heap p with
              | none => none
              | some _ =>
                jobupdateMemLoop fuel ((heap.setNext p node.next).free c) jobs
                  (ev ++ [Event.completed node.job.pid]) prev node.next
        else jobupdateMemLoop fuel heap jobs ev (some c) node.next := by
  rw [jobupdateMemLoop]
  simp only [hc]

/-- The loop of `jobupdate` in memory, started anywhere in the list: `kept` are
the records before `cur` that stay linked, `rest` the records from `cur`
on. The loop ends, prints one notice per done record of `rest`, and leaves
the list made of `kept` and the records of `rest` that are not done. -/
theorem jobupdateMemLoop_spec (rest : List (Nat × Job)) :
    ∀ (kept : List (Nat × Job)) (heap : JobHeap) (jobs : Option Nat) (ev : List Event)
      (prev cur : Option Nat) (fuel : Nat),
      IsSeg heap jobs kept cur → IsSeg heap cur rest none →
      ((kept ++ rest).map Prod.fst).Nodup →
      (∀ K b, kept = K ++ [b] → prev = some b.1) →
      rest.length ≤ fuel →
      ∃ heap' jobs',
        jobupdateMemLoop fuel heap jobs ev prev cur = some (heap', jobs', ev ++ notices rest) ∧
        IsSeg heap' jobs' (kept ++ running rest) none ∧
        (∀ a, a ∉ (kept ++ rest).map Prod.fst → heap' a = heap a) ∧
        (∀ n ∈ rest, n.2.done = true → heap' n.1 = none) := by
  induction rest with
  | nil =>
    intro kept heap jobs ev prev cur fuel hk hr _ _ _
    rw [IsSeg_nil] at hr
    subst hr
    refine ⟨heap, jobs, ?_, ?_, fun _ _ => rfl, by simp⟩
    · cases fuel <;> simp [jobupdateMemLoop, notices]
    · simpa [running] using hk
  | cons x rest ih =>
    intro kept heap jobs ev prev cur fuel hk hr hnd hprev hfuel
    obtain ⟨c, j⟩ := x
    rw [IsSeg_cons] at hr
    obtain ⟨hcur, next, hc, hrest⟩ := hr
    subst hcur
    obtain ⟨f, rfl⟩ : ∃ f, fuel = f + 1 := by
      cases fuel with
      | zero => simp at hfuel
      | succ f => exact ⟨f, rfl⟩
    have hf : rest.length ≤ f := by
      simp only [List.length_cons] at hfuel
      omega
    rw [jobupdateMemLoop_step _ _ _ _ _ _ _ hc]
    obtain ⟨hck, hcr, hkr, hnd', hnd''⟩ := nodup_middle_facts kept rest c j hnd
    by_cases hd : j.done = true
    · simp only [hd, if_true]
      obtain ⟨hn1, hn2⟩ := notices_cons_done c j rest hd
      rw [hn1, hn2]
      rcases List.eq_nil_or_concat kept with hnil | ⟨K, b, hKb⟩
      · subst hnil
        rw [IsSeg_nil] at hk
        subst hk
        simp only [if_true]
        have hrest' : IsSeg (heap.free c) next rest none := by
          refine IsSeg_frame heap _ rest _ _ ?_ hrest
          intro n hn
          simp [JobHeap.free, hcr n hn]
        obtain ⟨heap', jobs', h1, h2, h3, h4⟩ :=
          ih [] (heap.free c) next (ev ++ [Event.completed j.pid]) prev next f
            ((IsSeg_nil _ _ _).mpr rfl) hrest' (by simpa using hnd')
            (by
              intro K b e
              simp at e)
            hf
        have hcnot : c ∉ ([] ++ rest).map Prod.fst := by
          intro hm
          obtain ⟨n, hn, e⟩ := List.mem_map.mp hm
          exact hcr n (by simpa using hn) e
        refine ⟨heap', jobs', by simpa using h1, h2, ?_, ?_⟩
        · intro a ha
          simp only [List.nil_append, List.map_cons, List.mem_cons, not_or] at ha
          rw [h3 a (by simpa using ha.2)]
          simp [JobHeap.free, ha.1]
        · intro n hn hdn
          rcases List.mem_cons.mp hn with e | hn'
          · subst e
            rw [h3 c hcnot]
            simp [JobHeap.free]
          · exact h4 n hn' hdn
      · obtain ⟨p, pj⟩ := b
        rw [List.concat_eq_append] at hKb
        have hp : prev = some p := hprev K (p, pj) hKb
        subst hp
        rw [hKb, IsSeg_append] at hk
        obtain ⟨m, hK, hlast⟩ := hk
        rw [IsSeg_cons] at hlast
        obtain ⟨hm, pn, hpheap, hpn⟩ := hlast
        rw [IsSeg_nil] at hpn
        subst hpn
        subst hm
        have hpc : p ≠ c := hck (p, pj) (by rw [hKb]; simp)
        have hjobs : some c ≠ jobs := by
          intro e
          cases K with
          | nil =>
            rw [IsSeg_nil] at hK
            rw [hK] at e
            exact hpc (Option.some.inj e).symm
          | cons y K' =>
            obtain ⟨a, ja⟩ := y
            rw [IsSeg_cons] at hK
            rw [hK.1] at e
            exact hck (a, ja) (by rw [hKb]; simp) (Option.some.inj e).symm
        simp only [if_neg hjobs, hpheap]
        have hKp : ∀ n ∈ K, n.1 ≠ p :=
          nodup_snoc_facts K rest (p, pj) (by rw [← hKb]; exact hnd')
        have hK' : IsSeg ((heap.setNext p next).free c) jobs K (some p) := by
          refine IsSeg_frame heap _ K _ _ ?_ hK
          intro n hn
          have h1 : n.1 ≠ c := hck n (by rw [hKb]; simp [hn])
          simp [JobHeap.free, JobHeap.setNext, h1, hKp n hn]
        have hkept' : IsSeg ((heap.setNext p next).free c) jobs (K ++ [(p, pj)]) next := by
          rw [IsSeg_append]
          refine ⟨some p, hK', ?_⟩
          rw [IsSeg_cons]
          refine ⟨rfl, next, ?_, (IsSeg_nil _ _ _).mpr rfl⟩
          simp [JobHeap.free, JobHeap.setNext, hpc, hpheap]
        have hrest' : IsSeg ((heap.setNext p next).free c) next rest none := by
          refine IsSeg_frame heap _ rest _ _ ?_ hrest
          intro n hn
          have h1 : n.1 ≠ p := fun e => hkr (p, pj) (by rw [hKb]; simp) n hn e.symm
          simp [JobHeap.free, JobHeap.setNext, hcr n hn, h1]
        obtain ⟨heap', jobs', h1, h2, h3, h4⟩ :=
          ih (K ++ [(p, pj)]) ((heap.setNext p next).free c) jobs
            (ev ++ [Event.completed j.pid]) (some p) next f hkept' hrest'
            (by rw [← hKb]; exact hnd')
            (by
              intro K2 b2 e
              have := List.append_inj_right' e rfl
              simp only [List.cons.injEq, and_true] at this
              rw [← this])
            hf
        rw [← hKb] at h2 h3
        have hcnot : c ∉ (kept ++ rest).map Prod.fst := by
          intro hm
          obtain ⟨n, hn, e⟩ := List.mem_map.mp hm
          rcases List.mem_append.mp hn with h | h
          · exact hck n h e
          · exact hcr n h e
        have hpk : (p, pj) ∈ kept := by rw [hKb]; simp
        refine ⟨heap', jobs', by simpa using h1, h2, ?_, ?_⟩
        · intro a ha
          have hac : a ≠ c := by
            intro e
            apply ha
            rw [e]
            simp
          have hap : a ≠ p := by
            intro e
            apply ha
            rw [e]
            exact List.mem_map_of_mem Prod.fst (List.mem_append_left _ hpk)
          have ha' : a ∉ (kept ++ rest).map Prod.fst := by
            intro hm
            apply ha
            obtain ⟨n, hn, e⟩ := List.mem_map.mp hm
            rw [← e]
            refine List.mem_map_of_mem Prod.fst ?_
            rcases List.mem_append.mp hn with h | h
            · exact List.mem_append_left _ h
            · exact List.mem_append_right _ (List.mem_cons_of_mem _ h)
          rw [h3 a ha']
          simp [JobHeap.free, JobHeap.setNext, hac, hap]
        · intro n hn hdn
          rcases List.mem_cons.mp hn with e | hn'
          · subst e
            rw [h3 c hcnot]
            simp [JobHeap.free]
          · exact h4 n hn' hdn
    · have hd' : j.done = false := by simpa using hd
      simp only [hd', Bool.false_eq_true, if_false]
      obtain ⟨hn1, hn2⟩ := notices_cons_running c j rest hd'
      rw [hn1, hn2]
      have hkept' : IsSeg heap jobs (kept ++ [(c, j)]) next := by
        rw [IsSeg_append]
        refine ⟨some c, hk, ?_⟩
        rw [IsSeg_cons]
        exact ⟨rfl, next, hc, (IsSeg_nil _ _ _).mpr rfl⟩
      obtain ⟨heap', jobs', h1, h2, h3, h4⟩ :=
        ih (kept ++ [(c, j)]) heap jobs ev (some c) next f hkept' hrest hnd''
          (by
            intro K2 b2 e
            have := List.append_inj_right' e rfl
            simp only [List.cons.injEq, and_true] at this
            rw [← this])
          hf
      refine ⟨heap', jobs', h1, by simpa using h2, ?_, ?_⟩
      · intro a ha
        exact h3 a (by simpa using ha)
      · intro n hn hdn
        rcases List.mem_cons.mp hn with e | hn'
        · subst e
          rw [hd'] at hdn
          exact absurd hdn (by simp)
        · exact h4 n hn' hdn


theorem jobupdateMemLoop_idle (rest : List (Nat × Job)) :
    ∀ (heap : JobHeap) (jobs : Option Nat) (ev : List Event) (prev cur : Option Nat)
      (fuel : Nat),
      IsSeg heap cur rest none → (∀ n ∈ rest, n.2.done = false) → rest.length ≤ fuel →
      jobupdateMemLoop fuel heap jobs ev prev cur = some (heap, jobs, ev) := by
  induction rest with
  | nil =>
    intro heap jobs ev prev cur fuel hr _ _
    rw [IsSeg_nil] at hr
    subst hr
    cases fuel <;> simp [jobupdateMemLoop]
  | cons x rest ih =>
    intro heap jobs ev prev cur fuel hr hnd hfuel
    obtain ⟨c, j⟩ := x
    rw [IsSeg_cons] at hr
    obtain ⟨hcur, next, hc, hrest⟩ := hr
    subst hcur
    obtain ⟨f, rfl⟩ : ∃ f, fuel = f + 1 := by
      cases fuel with
      | zero => simp at hfuel
      | succ f => exact ⟨f, rfl⟩
    have hd : j.done = false := hnd (c, j) (List.mem_cons_self _ _)
    rw [jobupdateMemLoop_step _ _ _ _ _ _ _ hc]
    simp only [hd, Bool.false_eq_true, if_false]
    exact ih heap jobs ev (some c) next f hrest
      (fun n hn => hnd n (List.mem_cons_of_mem _ hn))
      (by
        simp only [List.length_cons] at hfuel
        omega)

theorem jobupdateLoop_eq (cur : Jobs) :
    ∀ (kept : Jobs) (ev : List Event),
      jobupdateLoop kept cur ev
        = (kept ++ cur.filter (fun j => !j.done),
            ev ++ (cur.filter (fun j => j.done)).map (fun j => Event.completed j.pid)) := by
  induction cur with
  | nil =>
    intro kept ev
    simp [jobupdateLoop]
  | cons j cur ih =>
    intro kept ev
    by_cases hd : j.done = true
    · simp [jobupdateLoop, hd, ih]
    · simp [jobupdateLoop, hd, ih]

theorem running_length_le (chain : List (Nat × Job)) :
    (running chain).length ≤ chain.length :=
  List.length_filter_le _ _

/-- C14. Job reconciliation: for every job list in memory (a chain of records
that ends with `NULL`) `jobupdate` ends; it prints exactly one completion
notice per record whose flag is set, with its pid, in list order; the list
it leaves holds exactly the records whose flag is clear, at their
addresses, in their order, with pid and flag unchanged; every removed
record is freed and no other object is touched; a second `jobupdate` right
after it prints nothing and changes nothing. The list function `jobupdate`
used by the main loop gives the same records and notices. -/
theorem jobupdate_reconciles (heap : JobHeap) (jobs : Option Nat)
    (chain : List (Nat × Job)) (fuel : Nat)
    (h : IsChain heap jobs chain) (hfuel : chain.length ≤ fuel) :
    ∃ heap' jobs',
      jobupdateMem fuel heap jobs = some (heap', jobs', notices chain) ∧
      IsChain heap' jobs' (running chain) ∧
      (∀ n ∈ chain, n.2.done = true → heap' n.1 = none) ∧
      (∀ a, a ∉ chain.map Prod.fst → heap' a = heap a) ∧
      jobupdateMem fuel heap' jobs' = some (heap', jobs', []) ∧
      jobupdate (chain.map Prod.snd) = ((running chain).map Prod.snd, notices chain) := by
  obtain ⟨heap', jobs', h1, h2, h3, h4⟩ :=
    jobupdateMemLoop_spec chain [] heap jobs [] jobs jobs fuel ((IsSeg_nil _ _ _).mpr rfl) h
      (by simpa using IsSeg_nodup heap chain jobs h)
      (by
        intro K b e
        simp at e)
      hfuel
  refine ⟨heap', jobs', by simpa [jobupdateMem] using h1, by simpa [IsChain] using h2,
    h4, by simpa using h3, ?_, ?_⟩
  · exact jobupdateMemLoop_idle (running chain) heap' jobs' [] jobs' jobs' fuel
      (by simpa using h2)
      (by
        intro n hn
        simpa [running] using (List.mem_filter.mp hn).2)
      (le_trans (running_length_le chain) hfuel)
  · rw [jobupdate, jobupdateLoop_eq]
    simp [running, notices, List.filter_map, Function.comp_def]

/-- C14, witness: the list of job 5 (done) at address 10, job 6 at address 20
and job 8 (done) at address 30. -/
theorem jobupdate_reconciles_witness :
    ∃ heap' jobs',
      jobupdateMem 3 sampleHeap (some 10)
        = some (heap', jobs', notices [(10, ⟨5, true⟩), (20, ⟨6, false⟩), (30, ⟨8, true⟩)]) ∧
      IsChain heap' jobs' (running [(10, ⟨5, true⟩), (20, ⟨6, false⟩), (30, ⟨8, true⟩)]) ∧
      (∀ n ∈ [((10 : Nat), (⟨5, true⟩ : Job)), (20, ⟨6, false⟩), (30, ⟨8, true⟩)],
        n.2.done = true → heap' n.1 = none) ∧
      (∀ a, a ∉ [((10 : Nat), (⟨5, true⟩ : Job)), (20, ⟨6, false⟩), (30, ⟨8, true⟩)].map
        Prod.fst → heap' a = sampleHeap a) ∧
      jobupdateMem 3 heap' jobs' = some (heap', jobs', []) ∧
      jobupdate ([((10 : Nat), (⟨5, true⟩ : Job)), (20, ⟨6, false⟩), (30, ⟨8, true⟩)].map
          Prod.snd)
        = ((running [(10, ⟨5, true⟩), (20, ⟨6, false⟩), (30, ⟨8, true⟩)]).map Prod.snd,
            notices [(10, ⟨5, true⟩), (20, ⟨6, false⟩), (30, ⟨8, true⟩)]) :=
  jobupdate_reconciles sampleHeap (some 10)
    [(10, ⟨5, true⟩), (20, ⟨6, false⟩), (30, ⟨8, true⟩)] 3
    ⟨rfl, some 20, rfl, rfl, some 30, rfl, rfl, none, rfl, rfl⟩ (by decide)


end Sushi
